import Mathlib

/-!
# Mod-2 Smith normal form and homology basis extraction: a verification development

This file gives a shallow embedding of the mod-2 homology module
(`homology_mod2.py`) and proves the central functional-correctness and
invariant properties of its solvers.

Embedding conventions:

* A numpy 0/1 integer matrix on which all arithmetic is performed modulo 2 is
  embedded as `Matrix (Fin m) (Fin n) (ZMod 2)`.  Every arithmetic operation in
  the source reduces its result mod 2 (`np.mod(..., 2)`), so carrying entries
  in `ZMod 2` is faithful for 0/1 inputs; an integer comparison `x == 1` on a
  0/1 entry becomes `x = 1` in `ZMod 2`.
* `np.sum` of a 0/1 integer array is an integer, not a mod-2 value; it is
  embedded as the natural-number count of 1-entries (`matSum`, `vecWt`).
* 1-dimensional numpy 0/1 integer arrays (used by the coset/image-group
  search, where integer Hamming weights drive sorting) are embedded as
  `List ℕ`, with mod-2 addition performed entrywise exactly as the source does.
* Python exceptions are embedded as `Option`/error branches; a Python function
  that can return values of several shapes returns a `Sum`.
* Keyword parameters with defaults are passed explicitly (`ri`, `rj` of
  `add_to_row` are `1`, the modulus is 2 throughout, exactly as in every call
  the module makes).
-/

variable {m n p : ℕ}

/-- Matrices over the field with two elements, the carrier of every boundary
matrix and transformation matrix of the module. -/
abbrev Mat (m n : ℕ) : Type := Matrix (Fin m) (Fin n) (ZMod 2)

/-- Source `_rswap i j M`: copy of `M` with rows `i` and `j` exchanged. -/
def _rswap (i j : Fin m) (M : Mat m n) : Mat m n :=
  fun r c => M (Equiv.swap i j r) c

/-- Source `_cswap i j M`: copy of `M` with columns `i` and `j` exchanged,
implemented by transposing, swapping rows, and transposing back. -/
def _cswap (i j : Fin n) (M : Mat m n) : Mat m n :=
  (_rswap i j M.transpose).transpose

/-- Source `add_to_row(M,i,j,ri,rj,mod=2)`: replace row `i` of `M` with
`ri·row i + rj·row j` reduced mod 2.  The module only ever calls it with
`ri = rj = 1` and modulus 2. -/
def add_to_row (M : Mat m n) (i j : Fin m) (ri rj : ZMod 2) : Mat m n :=
  M.updateRow i (ri • M i + rj • M j)

/-- Source `add_to_column(M,i,j,ci,cj,mod=2)`: the column analogue, defined as
in the source through transposition. -/
def add_to_column (M : Mat m n) (i j : Fin n) (ci cj : ZMod 2) : Mat m n :=
  (add_to_row M.transpose i j ci cj).transpose

/-- Source `modmult`: matrix multiplication with entries reduced mod 2; in
`ZMod 2` this is plain matrix multiplication. -/
def modmult (M : Mat m n) (N : Mat n p) : Mat m p := M * N

/-- Row scan of `_get_next_pivot`, recursing on the number of rows still to
visit: the first row index `r' ≥ r` with a nonzero entry in column `c`, if
any. -/
def findRowFromAux (M : Mat m n) (c : Fin n) : ℕ → ℕ → Option (Fin m)
  | 0, _ => none
  | fuel + 1, r =>
    if h : r < m then
      if M ⟨r, h⟩ c ≠ 0 then some ⟨r, h⟩ else findRowFromAux M c fuel (r + 1)
    else none

/-- Row scan of `_get_next_pivot` starting at row `r`. -/
def findRowFrom (M : Mat m n) (c : Fin n) (r : ℕ) : Option (Fin m) :=
  findRowFromAux M c (m - r) r

/-- Column-major scan of `_get_next_pivot`, recursing on the number of columns
still to visit: columns ascending from `c`, rows ascending from `s1` within
each column; first nonzero position. -/
def findPivotFromAux (M : Mat m n) (s1 : ℕ) : ℕ → ℕ → Option (Fin m × Fin n)
  | 0, _ => none
  | fuel + 1, c =>
    if h : c < n then
      match findRowFrom M ⟨c, h⟩ s1 with
      | some r => some (r, ⟨c, h⟩)
      | none => findPivotFromAux M s1 fuel (c + 1)
    else none

/-- Column-major scan of `_get_next_pivot` starting at column `c`. -/
def findPivotFrom (M : Mat m n) (s1 : ℕ) (c : ℕ) : Option (Fin m × Fin n) :=
  findPivotFromAux M s1 (n - c) c

/-- The column index `_get_next_pivot` actually starts its scan from: the
source guard `if not s2: s2 = s1` treats both `None` and `0` as "unset", so a
passed `s2 = 0` is replaced by `s1`. -/
def resolveStart (s1 : ℕ) (s2 : Option ℕ) : ℕ :=
  match s2 with
  | none => s1
  | some v => if v = 0 then s1 else v

/-- Source `_get_next_pivot(M,s1,s2)`: first nonzero entry of
`M[s1:, resolveStart s1 s2:]` in column-major order, if any. -/
def _get_next_pivot (M : Mat m n) (s1 : ℕ) (s2 : Option ℕ) : Option (Fin m × Fin n) :=
  findPivotFrom M s1 (resolveStart s1 s2)

/-- The quadruple `(S, L, R, Linv)` threaded through `smith_normal_form_mod2`. -/
structure SNFState (m n : ℕ) where
  S : Mat m n
  L : Mat m m
  R : Mat n n
  Linv : Mat m m

/-- Source line `S,L = _sr(s,rdx,S,L)` together with the adjacent
`Linv = swap_columns(s,rdx,Linv)[0]`: swap rows `i,j` of `S` and `L` and
columns `i,j` of `Linv`. -/
def snfSwapRows (i j : Fin m) (st : SNFState m n) : SNFState m n :=
  ⟨_rswap i j st.S, _rswap i j st.L, st.R, _cswap i j st.Linv⟩

/-- Source line `S,R = _sc(s,cdx,S,R)`: swap columns `i,j` of `S` and `R`. -/
def snfSwapCols (i j : Fin n) (st : SNFState m n) : SNFState m n :=
  ⟨_cswap i j st.S, st.L, _cswap i j st.R, st.Linv⟩

/-- Source line `S,L = _ar(rdx,s,S,L)` together with the adjacent
`Linv = add_to_column(Linv,s,rdx)`: add row `s` to row `a` in `S` and `L`,
and column `a` to column `s` in `Linv`. -/
def snfRowAdd (a s : Fin m) (st : SNFState m n) : SNFState m n :=
  ⟨add_to_row st.S a s 1 1, add_to_row st.L a s 1 1, st.R,
   add_to_column st.Linv s a 1 1⟩

/-- Source line `S,R = _ac(cdx,s,S,R)`: add column `s` to column `c` of `S`
and `R`. -/
def snfColAdd (c s : Fin n) (st : SNFState m n) : SNFState m n :=
  ⟨add_to_column st.S c s 1 1, st.L, add_to_column st.R c s 1 1, st.Linv⟩

/-- Source `if rdx > s: ...` — swap the pivot row up to row `s` if needed. -/
def snfSwap1 (s : ℕ) (hm : s < m) (r : Fin m) (st : SNFState m n) : SNFState m n :=
  if s < r.val then snfSwapRows ⟨s, hm⟩ r st else st

/-- Source `if cdx > s: ...` — swap the pivot column left to column `s` if
needed. -/
def snfSwap2 (s : ℕ) (hn : s < n) (c : Fin n) (st : SNFState m n) : SNFState m n :=
  if s < c.val then snfSwapCols ⟨s, hn⟩ c st else st

/-- Source `row_indices = [idx for idx in range(s+1,dimL) if S[idx][s] == 1]`
followed by the row-addition loop: the index list is computed from the state
once, before the loop runs. -/
def snfElimRows (s : ℕ) (hm : s < m) (hn : s < n) (st : SNFState m n) : SNFState m n :=
  (((List.finRange m).filter
      (fun i => decide (s + 1 ≤ i.val ∧ st.S i ⟨s, hn⟩ = 1)))).foldl
    (fun t i => snfRowAdd i ⟨s, hm⟩ t) st

/-- Source `column_indices = [jdx for jdx in range(s+1,dimR) if S[s][jdx] == 1]`
followed by the column-addition loop. -/
def snfElimCols (s : ℕ) (hm : s < m) (hn : s < n) (st : SNFState m n) : SNFState m n :=
  (((List.finRange n).filter
      (fun j => decide (s + 1 ≤ j.val ∧ st.S ⟨s, hm⟩ j = 1)))).foldl
    (fun t j => snfColAdd j ⟨s, hn⟩ t) st

/-- One iteration of the `for s in range(min(dimL,dimR))` loop of
`smith_normal_form_mod2`, after a pivot `(r,c)` has been found: swap the pivot
into position `(s,s)` (updating `L`/`Linv` resp. `R`), then clear column `s`
below the pivot by row additions (mirrored into `L` and, as column additions,
into `Linv`) and row `s` right of the pivot by column additions (mirrored into
`R`). -/
def snfStep (s : ℕ) (hm : s < m) (hn : s < n) (r : Fin m) (c : Fin n)
    (st : SNFState m n) : SNFState m n :=
  snfElimCols s hm hn (snfElimRows s hm hn (snfSwap2 s hn c (snfSwap1 s hm r st)))

/-- The main loop of `smith_normal_form_mod2`: at step `s` look for a pivot in
the submatrix `S[s:, s:]`; stop as soon as none exists (the `break`). -/
def snfGo (st : SNFState m n) (s : ℕ) : SNFState m n :=
  if h : s < min m n then
    match _get_next_pivot st.S s none with
    | none => st
    | some (r, c) =>
        snfGo (snfStep s (lt_of_lt_of_le h (min_le_left m n))
                (lt_of_lt_of_le h (min_le_right m n)) r c st) (s + 1)
  else st
termination_by min m n - s

/-- Source `smith_normal_form_mod2(M)`: starting from `S = M` and identity
transformations, diagonalize `S` while accumulating `L`, `R`, `Linv`. -/
def smith_normal_form_mod2 (M : Mat m n) : SNFState m n :=
  snfGo ⟨M, 1, 1, 1⟩ 0

/-- The triple `(S, L, Linv)` threaded through `reduced_row_echelon_form_mod2`. -/
structure RREFState (m n : ℕ) where
  S : Mat m n
  L : Mat m m
  Linv : Mat m m

/-- The inner `for s1 in range(s2, dimL)` loop of
`reduced_row_echelon_form_mod2`: the first `s1 ≥ s2` for which
`_get_next_pivot(S, s1, s2)` finds a pivot, together with that pivot. -/
def rrefFindPivot (S : Mat m n) (s2 : ℕ) (s1 : ℕ) : Option (Fin m × Fin m × Fin n) :=
  if h : s1 < m then
    match _get_next_pivot S s1 (some s2) with
    | some (r, c) => some (⟨s1, h⟩, r, c)
    | none => rrefFindPivot S s2 (s1 + 1)
  else none
termination_by m - s1

/-- Source line `S,L = _sr(s1,rdx,S,L)` with `Linv = swap_columns(rdx,s1,Linv)[0]`. -/
def rrefSwap (s1 rdx : Fin m) (st : RREFState m n) : RREFState m n :=
  ⟨_rswap s1 rdx st.S, _rswap s1 rdx st.L, _cswap rdx s1 st.Linv⟩

/-- Source line `S,L = _ar(idx,s1,S,L)` with `Linv = add_to_column(Linv,s1,idx)`. -/
def rrefRowAdd (a s1 : Fin m) (st : RREFState m n) : RREFState m n :=
  ⟨add_to_row st.S a s1 1 1, add_to_row st.L a s1 1 1,
   add_to_column st.Linv s1 a 1 1⟩

/-- Source `if rdx > s1: ...` — swap the pivot row up to the cursor row if
needed. -/
def rrefSwapStep (s1 rdx : Fin m) (st : RREFState m n) : RREFState m n :=
  if s1.val < rdx.val then rrefSwap s1 rdx st else st

/-- Source `row_indices = [idx for idx in range(dimL) if idx != s1 and
S[idx][cdx] == 1]` followed by the row-addition loop (full elimination of the
pivot column, above and below the pivot row). -/
def rrefElim (s1 : Fin m) (cdx : Fin n) (st : RREFState m n) : RREFState m n :=
  (((List.finRange m).filter (fun i => decide (i ≠ s1 ∧ st.S i cdx = 1)))).foldl
    (fun t i => rrefRowAdd i s1 t) st

/-- One iteration of the outer `for s2 in range(dimR)` loop of
`reduced_row_echelon_form_mod2`: if the inner loop finds a pivot `(rdx,cdx)`
at row cursor `s1`, swap it up to row `s1` and clear every other 1 of column
`cdx` by row additions (full elimination, above and below); otherwise do
nothing (the for-else `continue`).  The source's rebinding `s2 = cdx` before
`break` has no effect on the next outer iteration (the loop variable is
re-drawn from `range`), so it is not modelled. -/
def rrefStep (s2 : ℕ) (st : RREFState m n) : RREFState m n :=
  match rrefFindPivot st.S s2 s2 with
  | none => st
  | some (s1, rdx, cdx) => rrefElim s1 cdx (rrefSwapStep s1 rdx st)

/-- The outer loop of `reduced_row_echelon_form_mod2`, over every column
index. -/
def rrefGo (st : RREFState m n) (s2 : ℕ) : RREFState m n :=
  if s2 < n then rrefGo (rrefStep s2 st) (s2 + 1) else st
termination_by n - s2

/-- Source `reduced_row_echelon_form_mod2(M)`: starting from `S = M` and
identity transformations, row-reduce `S` while accumulating `L`, `Linv`. -/
def reduced_row_echelon_form_mod2 (M : Mat m n) : RREFState m n :=
  rrefGo ⟨M, 1, 1⟩ 0

/-! ## Pointwise descriptions of the elementary operations -/

theorem zmod2_eq_one_of_ne_zero : ∀ x : ZMod 2, x ≠ 0 → x = 1 := by decide

theorem zmod2_eq_zero_of_ne_one : ∀ x : ZMod 2, x ≠ 1 → x = 0 := by decide

theorem zmod2_add_self (x : ZMod 2) : x + x = 0 := by revert x; decide

theorem _rswap_apply (i j : Fin m) (A : Mat m n) (r : Fin m) (c : Fin n) :
    _rswap i j A r c = A (Equiv.swap i j r) c := rfl

theorem _cswap_apply (i j : Fin n) (A : Mat m n) (r : Fin m) (c : Fin n) :
    _cswap i j A r c = A r (Equiv.swap i j c) := rfl

theorem add_to_row_apply (A : Mat m n) (i j : Fin m) (r : Fin m) (c : Fin n) :
    add_to_row A i j 1 1 r c = if r = i then A i c + A j c else A r c := by
  by_cases h : r = i <;>
    simp [add_to_row, Matrix.updateRow_apply, h]

theorem add_to_column_apply (A : Mat m n) (i j : Fin n) (r : Fin m) (c : Fin n) :
    add_to_column A i j 1 1 r c = if c = i then A r i + A r j else A r c := by
  by_cases h : c = i <;>
    simp [add_to_column, add_to_row, Matrix.transpose_apply, Matrix.updateRow_apply, h]

/-! ## The elementary operations as multiplications by invertible matrices -/

/-- The permutation matrix exchanging indices `i` and `j`. -/
def swapMat (i j : Fin m) : Mat m m :=
  fun r c => if c = Equiv.swap i j r then 1 else 0

theorem swapMat_mul (i j : Fin m) (A : Mat m n) :
    swapMat i j * A = _rswap i j A := by
  ext r c
  rw [Matrix.mul_apply,
    Finset.sum_eq_single (Equiv.swap i j r)
      (fun b _ hb => by simp [swapMat, hb])
      (fun h => absurd (Finset.mem_univ _) h)]
  simp [swapMat, _rswap_apply]

theorem mul_swapMat (A : Mat m n) (i j : Fin n) :
    A * swapMat i j = _cswap i j A := by
  ext r c
  have key : ∀ b : Fin n, b ≠ Equiv.swap i j c → ¬(c = Equiv.swap i j b) := by
    intro b hb hc
    exact hb (by rw [hc, Equiv.swap_apply_self])
  rw [Matrix.mul_apply,
    Finset.sum_eq_single (Equiv.swap i j c)
      (fun b _ hb => by simp [swapMat, key b hb])
      (fun h => absurd (Finset.mem_univ _) h)]
  simp [swapMat, _cswap_apply, Equiv.swap_apply_self]

theorem swapMat_comm (i j : Fin m) : swapMat i j = swapMat j i := by
  unfold swapMat
  rw [Equiv.swap_comm]

theorem swapMat_mul_self (i j : Fin m) : swapMat i j * swapMat i j = 1 := by
  rw [swapMat_mul]
  ext r c
  simp [_rswap_apply, swapMat, Equiv.swap_apply_self, Matrix.one_apply, eq_comm]

/-- The transvection adding row/column `j` into row/column `i` over `ZMod 2`. -/
def addMat (i j : Fin m) : Mat m m :=
  1 + Matrix.stdBasisMatrix i j 1

theorem stdBasis_mul_apply (i j : Fin m) (A : Mat m n) (r : Fin m) (c : Fin n) :
    (Matrix.stdBasisMatrix i j (1 : ZMod 2) * A) r c = if r = i then A j c else 0 := by
  rw [Matrix.mul_apply,
    Finset.sum_eq_single j
      (fun b _ hb => by simp [Matrix.stdBasisMatrix, Ne.symm hb])
      (fun h => absurd (Finset.mem_univ _) h)]
  by_cases h : r = i
  · subst h; simp [Matrix.stdBasisMatrix]
  · simp [Matrix.stdBasisMatrix, h, Ne.symm h]

theorem mul_stdBasis_apply (A : Mat m n) (i j : Fin n) (r : Fin m) (c : Fin n) :
    (A * Matrix.stdBasisMatrix i j (1 : ZMod 2)) r c = if c = j then A r i else 0 := by
  rw [Matrix.mul_apply,
    Finset.sum_eq_single i
      (fun b _ hb => by simp [Matrix.stdBasisMatrix, Ne.symm hb])
      (fun h => absurd (Finset.mem_univ _) h)]
  by_cases h : c = j
  · subst h; simp [Matrix.stdBasisMatrix]
  · simp [Matrix.stdBasisMatrix, h, Ne.symm h]

theorem addMat_mul (i j : Fin m) (A : Mat m n) :
    addMat i j * A = add_to_row A i j 1 1 := by
  ext r c
  rw [addMat, Matrix.add_mul, Matrix.one_mul, Matrix.add_apply, stdBasis_mul_apply,
    add_to_row_apply]
  by_cases h : r = i <;> simp [h]

theorem mul_addMat (A : Mat m n) (i j : Fin n) :
    A * addMat j i = add_to_column A i j 1 1 := by
  ext r c
  rw [addMat, Matrix.mul_add, Matrix.mul_one, Matrix.add_apply, mul_stdBasis_apply,
    add_to_column_apply]
  by_cases h : c = i <;> simp [h]

theorem addMat_mul_self (i j : Fin m) (h : i ≠ j) : addMat i j * addMat i j = 1 := by
  have hEE : Matrix.stdBasisMatrix i j (1 : ZMod 2) * Matrix.stdBasisMatrix i j 1 = 0 :=
    Matrix.StdBasisMatrix.mul_of_ne i j 1 (Ne.symm h) 1
  have hE2 : Matrix.stdBasisMatrix i j (1 : ZMod 2) + Matrix.stdBasisMatrix i j 1 = 0 := by
    ext r c
    exact zmod2_add_self _
  rw [addMat]
  calc (1 + Matrix.stdBasisMatrix i j (1 : ZMod 2)) * (1 + Matrix.stdBasisMatrix i j 1)
      = 1 * (1 + Matrix.stdBasisMatrix i j 1)
        + Matrix.stdBasisMatrix i j 1 * (1 + Matrix.stdBasisMatrix i j 1) := by
        rw [Matrix.add_mul]
    _ = (1 + Matrix.stdBasisMatrix i j 1)
        + (Matrix.stdBasisMatrix i j 1 * 1
           + Matrix.stdBasisMatrix i j 1 * Matrix.stdBasisMatrix i j 1) := by
        rw [Matrix.one_mul, Matrix.mul_add]
    _ = (1 + Matrix.stdBasisMatrix i j 1) + (Matrix.stdBasisMatrix i j 1 + 0) := by
        rw [Matrix.mul_one, hEE]
    _ = 1 + (Matrix.stdBasisMatrix i j 1 + Matrix.stdBasisMatrix i j 1) := by
        rw [add_zero, add_assoc]
    _ = 1 := by rw [hE2, add_zero]

/-! ## The algebraic loop invariant of both solvers -/

/-- Invariant carried by `smith_normal_form_mod2`: the equation `L·M·R = S`,
two-sided invertibility of `L` witnessed by `Linv`, and invertibility of `R`
(whose inverse the source does not track, but which every accumulated
elementary column operation preserves). -/
def SNFInv (M : Mat m n) (st : SNFState m n) : Prop :=
  st.L * M * st.R = st.S ∧ st.L * st.Linv = 1 ∧ st.Linv * st.L = 1 ∧
    ∃ Rinv : Mat n n, st.R * Rinv = 1 ∧ Rinv * st.R = 1

/-- Invariant carried by `reduced_row_echelon_form_mod2`: `L·M = S` and
two-sided invertibility of `L` witnessed by `Linv`. -/
def RREFInv (M : Mat m n) (st : RREFState m n) : Prop :=
  st.L * M = st.S ∧ st.L * st.Linv = 1 ∧ st.Linv * st.L = 1

theorem snfInv_swapRows {M : Mat m n} {st : SNFState m n} (h : SNFInv M st)
    (i j : Fin m) : SNFInv M (snfSwapRows i j st) := by
  obtain ⟨h1, h2, h3, Rinv, hR1, hR2⟩ := h
  refine ⟨?_, ?_, ?_, Rinv, hR1, hR2⟩
  · show _rswap i j st.L * M * st.R = _rswap i j st.S
    rw [← swapMat_mul i j st.L, ← swapMat_mul i j st.S, ← h1]
    simp only [Matrix.mul_assoc]
  · show _rswap i j st.L * _cswap i j st.Linv = 1
    rw [← swapMat_mul i j st.L, ← mul_swapMat st.Linv i j]
    simp only [Matrix.mul_assoc]
    rw [← Matrix.mul_assoc st.L st.Linv, h2, Matrix.one_mul, swapMat_mul_self]
  · show _cswap i j st.Linv * _rswap i j st.L = 1
    rw [← swapMat_mul i j st.L, ← mul_swapMat st.Linv i j]
    simp only [Matrix.mul_assoc]
    rw [← Matrix.mul_assoc (swapMat i j) (swapMat i j) st.L, swapMat_mul_self,
      Matrix.one_mul, h3]

theorem snfInv_swapCols {M : Mat m n} {st : SNFState m n} (h : SNFInv M st)
    (i j : Fin n) : SNFInv M (snfSwapCols i j st) := by
  obtain ⟨h1, h2, h3, Rinv, hR1, hR2⟩ := h
  refine ⟨?_, h2, h3, swapMat i j * Rinv, ?_, ?_⟩
  · show st.L * M * _cswap i j st.R = _cswap i j st.S
    rw [← mul_swapMat st.R i j, ← mul_swapMat st.S i j, ← h1]
    simp only [Matrix.mul_assoc]
  · show _cswap i j st.R * (swapMat i j * Rinv) = 1
    rw [← mul_swapMat st.R i j]
    simp only [Matrix.mul_assoc]
    rw [← Matrix.mul_assoc (swapMat i j) (swapMat i j) Rinv, swapMat_mul_self,
      Matrix.one_mul, hR1]
  · show swapMat i j * Rinv * _cswap i j st.R = 1
    rw [← mul_swapMat st.R i j]
    simp only [Matrix.mul_assoc]
    rw [← Matrix.mul_assoc Rinv st.R (swapMat i j), hR2, Matrix.one_mul,
      swapMat_mul_self]

theorem snfInv_rowAdd {M : Mat m n} {st : SNFState m n} (h : SNFInv M st)
    {a s : Fin m} (has : a ≠ s) : SNFInv M (snfRowAdd a s st) := by
  obtain ⟨h1, h2, h3, Rinv, hR1, hR2⟩ := h
  have hself := addMat_mul_self a s has
  refine ⟨?_, ?_, ?_, Rinv, hR1, hR2⟩
  · show add_to_row st.L a s 1 1 * M * st.R = add_to_row st.S a s 1 1
    rw [← addMat_mul a s st.L, ← addMat_mul a s st.S, ← h1]
    simp only [Matrix.mul_assoc]
  · show add_to_row st.L a s 1 1 * add_to_column st.Linv s a 1 1 = 1
    rw [← addMat_mul a s st.L, ← mul_addMat st.Linv s a]
    simp only [Matrix.mul_assoc]
    rw [← Matrix.mul_assoc st.L st.Linv, h2, Matrix.one_mul, hself]
  · show add_to_column st.Linv s a 1 1 * add_to_row st.L a s 1 1 = 1
    rw [← addMat_mul a s st.L, ← mul_addMat st.Linv s a]
    simp only [Matrix.mul_assoc]
    rw [← Matrix.mul_assoc (addMat a s) (addMat a s) st.L, hself, Matrix.one_mul, h3]

theorem snfInv_colAdd {M : Mat m n} {st : SNFState m n} (h : SNFInv M st)
    {c s : Fin n} (hcs : c ≠ s) : SNFInv M (snfColAdd c s st) := by
  obtain ⟨h1, h2, h3, Rinv, hR1, hR2⟩ := h
  have hself := addMat_mul_self s c hcs.symm
  refine ⟨?_, h2, h3, addMat s c * Rinv, ?_, ?_⟩
  · show st.L * M * add_to_column st.R c s 1 1 = add_to_column st.S c s 1 1
    rw [← mul_addMat st.R c s, ← mul_addMat st.S c s, ← h1]
    simp only [Matrix.mul_assoc]
  · show add_to_column st.R c s 1 1 * (addMat s c * Rinv) = 1
    rw [← mul_addMat st.R c s]
    simp only [Matrix.mul_assoc]
    rw [← Matrix.mul_assoc (addMat s c) (addMat s c) Rinv, hself, Matrix.one_mul, hR1]
  · show addMat s c * Rinv * add_to_column st.R c s 1 1 = 1
    rw [← mul_addMat st.R c s]
    simp only [Matrix.mul_assoc]
    rw [← Matrix.mul_assoc Rinv st.R (addMat s c), hR2, Matrix.one_mul, hself]

theorem rrefInv_swap {M : Mat m n} {st : RREFState m n} (h : RREFInv M st)
    (s1 rdx : Fin m) : RREFInv M (rrefSwap s1 rdx st) := by
  obtain ⟨h1, h2, h3⟩ := h
  have hcomm : swapMat rdx s1 = swapMat s1 rdx := swapMat_comm rdx s1
  refine ⟨?_, ?_, ?_⟩
  · show _rswap s1 rdx st.L * M = _rswap s1 rdx st.S
    rw [← swapMat_mul s1 rdx st.L, ← swapMat_mul s1 rdx st.S, ← h1]
    simp only [Matrix.mul_assoc]
  · show _rswap s1 rdx st.L * _cswap rdx s1 st.Linv = 1
    rw [← swapMat_mul s1 rdx st.L, ← mul_swapMat st.Linv rdx s1, hcomm]
    simp only [Matrix.mul_assoc]
    rw [← Matrix.mul_assoc st.L st.Linv, h2, Matrix.one_mul, swapMat_mul_self]
  · show _cswap rdx s1 st.Linv * _rswap s1 rdx st.L = 1
    rw [← swapMat_mul s1 rdx st.L, ← mul_swapMat st.Linv rdx s1, hcomm]
    simp only [Matrix.mul_assoc]
    rw [← Matrix.mul_assoc (swapMat s1 rdx) (swapMat s1 rdx) st.L, swapMat_mul_self,
      Matrix.one_mul, h3]

theorem rrefInv_rowAdd {M : Mat m n} {st : RREFState m n} (h : RREFInv M st)
    {a s1 : Fin m} (has : a ≠ s1) : RREFInv M (rrefRowAdd a s1 st) := by
  obtain ⟨h1, h2, h3⟩ := h
  have hself := addMat_mul_self a s1 has
  refine ⟨?_, ?_, ?_⟩
  · show add_to_row st.L a s1 1 1 * M = add_to_row st.S a s1 1 1
    rw [← addMat_mul a s1 st.L, ← addMat_mul a s1 st.S, ← h1]
    simp only [Matrix.mul_assoc]
  · show add_to_row st.L a s1 1 1 * add_to_column st.Linv s1 a 1 1 = 1
    rw [← addMat_mul a s1 st.L, ← mul_addMat st.Linv s1 a]
    simp only [Matrix.mul_assoc]
    rw [← Matrix.mul_assoc st.L st.Linv, h2, Matrix.one_mul, hself]
  · show add_to_column st.Linv s1 a 1 1 * add_to_row st.L a s1 1 1 = 1
    rw [← addMat_mul a s1 st.L, ← mul_addMat st.Linv s1 a]
    simp only [Matrix.mul_assoc]
    rw [← Matrix.mul_assoc (addMat a s1) (addMat a s1) st.L, hself, Matrix.one_mul, h3]

/-! ## Carrying the invariant through the loops -/

theorem foldl_preserve {α β : Type _} (P : β → Prop) (f : β → α → β) :
    ∀ l : List α, (∀ st a, a ∈ l → P st → P (f st a)) → ∀ st, P st → P (l.foldl f st) := by
  intro l
  induction l with
  | nil => intro _ st hst; simpa using hst
  | cons a l ih =>
      intro h st hst
      simpa using ih (fun st' b hb => h st' b (List.mem_cons_of_mem a hb)) (f st a)
        (h st a (List.mem_cons_self a l) hst)

theorem snfStep_inv {M : Mat m n} (s : ℕ) (hm : s < m) (hn : s < n) (r : Fin m)
    (c : Fin n) {st : SNFState m n} (h : SNFInv M st) :
    SNFInv M (snfStep s hm hn r c st) := by
  have h1 : SNFInv M (snfSwap1 s hm r st) := by
    unfold snfSwap1
    split
    · exact snfInv_swapRows h _ _
    · exact h
  have h2 : SNFInv M (snfSwap2 s hn c (snfSwap1 s hm r st)) := by
    unfold snfSwap2
    split
    · exact snfInv_swapCols h1 _ _
    · exact h1
  have h3 : SNFInv M (snfElimRows s hm hn (snfSwap2 s hn c (snfSwap1 s hm r st))) := by
    unfold snfElimRows
    refine foldl_preserve _ _ _ ?_ _ h2
    intro t i hi hT
    have hge := (of_decide_eq_true ((List.mem_filter.mp hi).2)).1
    refine snfInv_rowAdd hT ?_
    intro hcontr
    have hv : i.val = s := by rw [hcontr]
    omega
  have h4 : SNFInv M (snfElimCols s hm hn
      (snfElimRows s hm hn (snfSwap2 s hn c (snfSwap1 s hm r st)))) := by
    unfold snfElimCols
    refine foldl_preserve _ _ _ ?_ _ h3
    intro t j hj hT
    have hge := (of_decide_eq_true ((List.mem_filter.mp hj).2)).1
    refine snfInv_colAdd hT ?_
    intro hcontr
    have hv : j.val = s := by rw [hcontr]
    omega
  exact h4

theorem snfGo_inv {M : Mat m n} :
    ∀ (k s : ℕ) (st : SNFState m n), min m n - s ≤ k →
      SNFInv M st → SNFInv M (snfGo st s) := by
  intro k
  induction k with
  | zero =>
      intro s st hk hst
      rw [snfGo.eq_def]
      have hs : ¬ s < min m n := by omega
      rw [dif_neg hs]
      exact hst
  | succ k ih =>
      intro s st hk hst
      rw [snfGo.eq_def]
      by_cases hs : s < min m n
      · rw [dif_pos hs]
        cases hpiv : _get_next_pivot st.S s none with
        | none => exact hst
        | some rc =>
            obtain ⟨r, c⟩ := rc
            exact ih (s + 1) _ (by omega) (snfStep_inv s _ _ r c hst)
      · rw [dif_neg hs]
        exact hst

theorem snf_basic (M : Mat m n) : SNFInv M (smith_normal_form_mod2 M) := by
  have h0 : SNFInv M (⟨M, 1, 1, 1⟩ : SNFState m n) := by
    refine ⟨?_, ?_, ?_, 1, ?_, ?_⟩ <;> simp
  exact snfGo_inv (min m n) 0 _ (by omega) h0

theorem rrefStep_inv {M : Mat m n} (s2 : ℕ) {st : RREFState m n} (h : RREFInv M st) :
    RREFInv M (rrefStep s2 st) := by
  unfold rrefStep
  cases hpiv : rrefFindPivot st.S s2 s2 with
  | none => exact h
  | some x =>
      obtain ⟨s1, rdx, cdx⟩ := x
      have h1 : RREFInv M (rrefSwapStep s1 rdx st) := by
        unfold rrefSwapStep
        split
        · exact rrefInv_swap h s1 rdx
        · exact h
      unfold rrefElim
      refine foldl_preserve _ _ _ ?_ _ h1
      intro t i hi hT
      exact rrefInv_rowAdd hT (of_decide_eq_true ((List.mem_filter.mp hi).2)).1

theorem rrefGo_inv {M : Mat m n} :
    ∀ (k s2 : ℕ) (st : RREFState m n), n - s2 ≤ k →
      RREFInv M st → RREFInv M (rrefGo st s2) := by
  intro k
  induction k with
  | zero =>
      intro s2 st hk hst
      rw [rrefGo.eq_def]
      have hs : ¬ s2 < n := by omega
      rw [if_neg hs]
      exact hst
  | succ k ih =>
      intro s2 st hk hst
      rw [rrefGo.eq_def]
      by_cases hs : s2 < n
      · rw [if_pos hs]
        exact ih (s2 + 1) _ (by omega) (rrefStep_inv s2 hst)
      · rw [if_neg hs]
        exact hst

theorem rref_basic (M : Mat m n) : RREFInv M (reduced_row_echelon_form_mod2 M) := by
  have h0 : RREFInv M (⟨M, 1, 1⟩ : RREFState m n) := by
    refine ⟨?_, ?_, ?_⟩ <;> simp
  exact rrefGo_inv n 0 _ (by omega) h0

/-- C5: after `smith_normal_form_mod2(M)` the transformation bundle satisfies
`L·Linv = Linv·L = Identity` (mod 2); likewise after
`reduced_row_echelon_form_mod2(M)`, whose bundle moreover satisfies
`M = Linv·S`. -/
theorem claim_C5 (M : Mat m n) :
    ((smith_normal_form_mod2 M).L * (smith_normal_form_mod2 M).Linv = 1 ∧
      (smith_normal_form_mod2 M).Linv * (smith_normal_form_mod2 M).L = 1) ∧
    ((reduced_row_echelon_form_mod2 M).L * (reduced_row_echelon_form_mod2 M).Linv = 1 ∧
      (reduced_row_echelon_form_mod2 M).Linv * (reduced_row_echelon_form_mod2 M).L = 1) ∧
    M = (reduced_row_echelon_form_mod2 M).Linv * (reduced_row_echelon_form_mod2 M).S := by
  obtain ⟨hs1, hs2, hs3, -⟩ := snf_basic M
  obtain ⟨hr1, hr2, hr3⟩ := rref_basic M
  refine ⟨⟨hs2, hs3⟩, ⟨hr2, hr3⟩, ?_⟩
  rw [← hr1, ← Matrix.mul_assoc, hr3, Matrix.one_mul]

/-! ## Characterization of the pivot search -/

theorem findRowFromAux_none (M : Mat m n) (c : Fin n) :
    ∀ fuel r : ℕ, m ≤ fuel + r →
      (findRowFromAux M c fuel r = none ↔ ∀ i : Fin m, r ≤ i.val → M i c = 0) := by
  intro fuel
  induction fuel with
  | zero =>
      intro r hr
      constructor
      · intro _ i hi
        exact absurd i.isLt (by omega)
      · intro _
        rfl
  | succ fuel ih =>
      intro r hr
      simp only [findRowFromAux]
      by_cases h : r < m
      · rw [dif_pos h]
        by_cases hz : M ⟨r, h⟩ c ≠ 0
        · rw [if_pos hz]
          constructor
          · intro hcontr
            cases hcontr
          · intro hall
            exact absurd (hall ⟨r, h⟩ (le_refl r)) hz
        · rw [if_neg hz]
          push_neg at hz
          rw [ih (r + 1) (by omega)]
          constructor
          · intro hall i hi
            by_cases hir : i.val = r
            · have hieq : i = ⟨r, h⟩ := Fin.ext hir
              rw [hieq]
              exact hz
            · exact hall i (by omega)
          · intro hall i hi
            exact hall i (by omega)
      · rw [dif_neg h]
        constructor
        · intro _ i hi
          exact absurd i.isLt (by omega)
        · intro _
          rfl

theorem findRowFromAux_some (M : Mat m n) (c : Fin n) :
    ∀ fuel r : ℕ, ∀ i : Fin m, findRowFromAux M c fuel r = some i →
      r ≤ i.val ∧ M i c ≠ 0 ∧ ∀ i' : Fin m, r ≤ i'.val → i'.val < i.val → M i' c = 0 := by
  intro fuel
  induction fuel with
  | zero =>
      intro r i hcontr
      cases hcontr
  | succ fuel ih =>
      intro r i h
      simp only [findRowFromAux] at h
      by_cases hm' : r < m
      · rw [dif_pos hm'] at h
        by_cases hz : M ⟨r, hm'⟩ c ≠ 0
        · rw [if_pos hz] at h
          have hieq : i = ⟨r, hm'⟩ := (Option.some_injective _ h).symm
          subst hieq
          refine ⟨le_refl r, hz, ?_⟩
          intro i' h1 h2
          have h2' : i'.val < r := h2
          exact absurd h1 (by omega)
        · rw [if_neg hz] at h
          push_neg at hz
          obtain ⟨h1, h2, h3⟩ := ih (r + 1) i h
          refine ⟨by omega, h2, ?_⟩
          intro i' hi1 hi2
          by_cases hir : i'.val = r
          · have : i' = ⟨r, hm'⟩ := Fin.ext hir
            rw [this]
            exact hz
          · exact h3 i' (by omega) hi2
      · rw [dif_neg hm'] at h
        cases h

theorem findRowFrom_none (M : Mat m n) (c : Fin n) (r : ℕ) :
    findRowFrom M c r = none ↔ ∀ i : Fin m, r ≤ i.val → M i c = 0 :=
  findRowFromAux_none M c (m - r) r (by omega)

theorem findRowFrom_some (M : Mat m n) (c : Fin n) (r : ℕ) (i : Fin m)
    (h : findRowFrom M c r = some i) :
    r ≤ i.val ∧ M i c ≠ 0 ∧ ∀ i' : Fin m, r ≤ i'.val → i'.val < i.val → M i' c = 0 :=
  findRowFromAux_some M c (m - r) r i h

theorem findPivotFromAux_none (M : Mat m n) (s1 : ℕ) :
    ∀ fuel c : ℕ, n ≤ fuel + c →
      (findPivotFromAux M s1 fuel c = none ↔
        ∀ (i : Fin m) (j : Fin n), s1 ≤ i.val → c ≤ j.val → M i j = 0) := by
  intro fuel
  induction fuel with
  | zero =>
      intro c hc
      constructor
      · intro _ i j hi hj
        exact absurd j.isLt (by omega)
      · intro _
        rfl
  | succ fuel ih =>
      intro c hc
      simp only [findPivotFromAux]
      by_cases h : c < n
      · rw [dif_pos h]
        cases hrow : findRowFrom M ⟨c, h⟩ s1 with
        | some r =>
            obtain ⟨hr1, hr2, -⟩ := findRowFrom_some M ⟨c, h⟩ s1 r hrow
            constructor
            · intro hcontr
              cases hcontr
            · intro hall
              exact absurd (hall r ⟨c, h⟩ hr1 (le_refl c)) hr2
        | none =>
            rw [ih (c + 1) (by omega)]
            have hcol := (findRowFrom_none M ⟨c, h⟩ s1).mp hrow
            constructor
            · intro hall i j hi hj
              by_cases hjc : j.val = c
              · have : j = ⟨c, h⟩ := Fin.ext hjc
                rw [this]
                exact hcol i hi
              · exact hall i j hi (by omega)
            · intro hall i j hi hj
              exact hall i j hi (by omega)
      · rw [dif_neg h]
        constructor
        · intro _ i j hi hj
          exact absurd j.isLt (by omega)
        · intro _
          rfl

theorem findPivotFromAux_some (M : Mat m n) (s1 : ℕ) :
    ∀ fuel c : ℕ, ∀ (r : Fin m) (cc : Fin n),
      findPivotFromAux M s1 fuel c = some (r, cc) →
      s1 ≤ r.val ∧ c ≤ cc.val ∧ M r cc ≠ 0 ∧
        ∀ (i : Fin m) (j : Fin n), s1 ≤ i.val → c ≤ j.val →
          (j.val < cc.val ∨ (j = cc ∧ i.val < r.val)) → M i j = 0 := by
  intro fuel
  induction fuel with
  | zero =>
      intro c r cc hcontr
      cases hcontr
  | succ fuel ih =>
      intro c r cc h
      simp only [findPivotFromAux] at h
      by_cases hn' : c < n
      · rw [dif_pos hn'] at h
        cases hrow : findRowFrom M ⟨c, hn'⟩ s1 with
        | some r0 =>
            rw [hrow] at h
            have hpair := Option.some_injective _ h
            have hr : r = r0 := by
              have := congrArg Prod.fst hpair
              exact this.symm
            have hcc : cc = ⟨c, hn'⟩ := by
              have := congrArg Prod.snd hpair
              exact this.symm
            subst hr
            subst hcc
            obtain ⟨h1, h2, h3⟩ := findRowFrom_some M ⟨c, hn'⟩ s1 r hrow
            refine ⟨h1, le_refl c, h2, ?_⟩
            intro i j hi hj hcase
            rcases hcase with hlt | ⟨hjcc, hir⟩
            · have hlt' : j.val < c := hlt
              exact absurd hj (by omega)
            · rw [hjcc]
              exact h3 i hi hir
        | none =>
            rw [hrow] at h
            obtain ⟨h1, h2, h3, h4⟩ := ih (c + 1) r cc h
            have hcol := (findRowFrom_none M ⟨c, hn'⟩ s1).mp hrow
            refine ⟨h1, by omega, h3, ?_⟩
            intro i j hi hj hcase
            by_cases hjc : j.val = c
            · have : j = ⟨c, hn'⟩ := Fin.ext hjc
              rw [this]
              exact hcol i hi
            · exact h4 i j hi (by omega) hcase
      · rw [dif_neg hn'] at h
        cases h

theorem _get_next_pivot_none (M : Mat m n) (s1 : ℕ) (s2 : Option ℕ) :
    _get_next_pivot M s1 s2 = none ↔
      ∀ (i : Fin m) (j : Fin n), s1 ≤ i.val → resolveStart s1 s2 ≤ j.val → M i j = 0 :=
  findPivotFromAux_none M s1 (n - resolveStart s1 s2) (resolveStart s1 s2) (by omega)

theorem _get_next_pivot_some (M : Mat m n) (s1 : ℕ) (s2 : Option ℕ) (r : Fin m)
    (c : Fin n) (h : _get_next_pivot M s1 s2 = some (r, c)) :
    s1 ≤ r.val ∧ resolveStart s1 s2 ≤ c.val ∧ M r c ≠ 0 ∧
      ∀ (i : Fin m) (j : Fin n), s1 ≤ i.val → resolveStart s1 s2 ≤ j.val →
        (j.val < c.val ∨ (j = c ∧ i.val < r.val)) → M i j = 0 :=
  findPivotFromAux_some M s1 (n - resolveStart s1 s2) (resolveStart s1 s2) r c h

/-- C4 (amended): `_get_next_pivot(M,rowStart,colStart)` scans columns in
ascending order and rows in ascending order within each column, starting from
row `rowStart` and from column `resolveStart rowStart colStart`; it returns
the first nonzero position so encountered and `none` exactly when that
submatrix is zero.  Because of the source guard `if not s2: s2 = s1`, the
effective start column is `colStart` only when `colStart` is given and
nonzero; a `colStart` of `None` or `0` is replaced by `rowStart`. -/
theorem claim_C4 (M : Mat m n) (s1 : ℕ) (s2 : Option ℕ) :
    (_get_next_pivot M s1 s2 = none ↔
      ∀ (i : Fin m) (j : Fin n), s1 ≤ i.val → resolveStart s1 s2 ≤ j.val → M i j = 0) ∧
    (∀ (r : Fin m) (c : Fin n), _get_next_pivot M s1 s2 = some (r, c) →
      s1 ≤ r.val ∧ resolveStart s1 s2 ≤ c.val ∧ M r c ≠ 0 ∧
        ∀ (i : Fin m) (j : Fin n), s1 ≤ i.val → resolveStart s1 s2 ≤ j.val →
          (j.val < c.val ∨ (j = c ∧ i.val < r.val)) → M i j = 0) :=
  ⟨_get_next_pivot_none M s1 s2, fun r c h => _get_next_pivot_some M s1 s2 r c h⟩

/-- C4 counterexample: for `M = [[0,0],[1,0]]`, `rowStart = 1`, `colStart = 0`
the submatrix `M[1:, 0:]` is nonzero at `(1,0)`, so the claim requires the
pivot `(1,0)`; the code returns `None` because `colStart = 0` is treated as
unset (`if not s2`) and replaced by `rowStart = 1`. -/
theorem claim_C4_counterexample :
    _get_next_pivot (!![0,0;1,0] : Mat 2 2) 1 (some 0) = none ∧
      (!![0,0;1,0] : Mat 2 2) 1 0 ≠ 0 := by
  decide

/-- C10 (amended): for distinct row indices `i ≠ j`, `add_to_row` with the
default multipliers and modulus 2 is an involution. -/
theorem claim_C10 (M : Mat m n) (i j : Fin m) (h : i ≠ j) :
    add_to_row (add_to_row M i j 1 1) i j 1 1 = M := by
  ext r c
  rw [add_to_row_apply, add_to_row_apply, add_to_row_apply]
  by_cases hr : r = i
  · subst hr
    rw [if_pos rfl, if_pos rfl, if_neg (Ne.symm h)]
    rw [add_assoc, zmod2_add_self, add_zero]
  · rw [if_neg hr, add_to_row_apply, if_neg hr]

/-- C10 witness: the involution property at a concrete matrix and index pair. -/
theorem claim_C10_witness :
    add_to_row (add_to_row (!![1,0;1,1] : Mat 2 2) 0 1 1 1) 0 1 1 1 = !![1,0;1,1] :=
  claim_C10 !![1,0;1,1] 0 1 (by decide)

/-- C10 counterexample: the claim quantifies over every pair of row indices,
including `i = j`; applying `add_to_row(M,0,0)` twice to the 1×1 matrix `[[1]]`
yields the zero row twice over (`row + row ≡ 0` mod 2), not the original
matrix. -/
theorem claim_C10_counterexample :
    add_to_row (add_to_row (!![1] : Mat 1 1) 0 0 1 1) 0 0 1 1 ≠ !![1] := by
  decide

/-! ## Shape analysis of the Smith normal form loop -/

/-- Region invariant at the start of step `s` of `smith_normal_form_mod2`:
every entry in the first `s` rows or first `s` columns is already in final
diagonal position (1 on the diagonal, 0 elsewhere). -/
def snfRegion (s : ℕ) (S : Mat m n) : Prop :=
  ∀ (i : Fin m) (j : Fin n), i.val < s ∨ j.val < s →
    S i j = if i.val = j.val then 1 else 0

/-- The final Smith-normal shape: ones on the first `r` diagonal positions and
zeros everywhere else. -/
def diagShape (r : ℕ) (S : Mat m n) : Prop :=
  ∀ (i : Fin m) (j : Fin n), S i j = if i.val = j.val ∧ i.val < r then 1 else 0

theorem foldl_S_snfRowAdd (sm : Fin m) :
    ∀ (l : List (Fin m)) (st : SNFState m n),
      (l.foldl (fun t i => snfRowAdd i sm t) st).S =
        l.foldl (fun A i => add_to_row A i sm 1 1) st.S := by
  intro l
  induction l with
  | nil => intro st; rfl
  | cons a l ih => intro st; rw [List.foldl_cons, List.foldl_cons, ih]; rfl

theorem foldl_S_snfColAdd (sn : Fin n) :
    ∀ (l : List (Fin n)) (st : SNFState m n),
      (l.foldl (fun t j => snfColAdd j sn t) st).S =
        l.foldl (fun A j => add_to_column A j sn 1 1) st.S := by
  intro l
  induction l with
  | nil => intro st; rfl
  | cons a l ih => intro st; rw [List.foldl_cons, List.foldl_cons, ih]; rfl

theorem foldl_S_rrefRowAdd (s1 : Fin m) :
    ∀ (l : List (Fin m)) (st : RREFState m n),
      (l.foldl (fun t i => rrefRowAdd i s1 t) st).S =
        l.foldl (fun A i => add_to_row A i s1 1 1) st.S := by
  intro l
  induction l with
  | nil => intro st; rfl
  | cons a l ih => intro st; rw [List.foldl_cons, List.foldl_cons, ih]; rfl

theorem foldl_add_to_row_apply (sm : Fin m) :
    ∀ l : List (Fin m), sm ∉ l → l.Nodup →
      ∀ (A : Mat m n) (i : Fin m) (c : Fin n),
        (l.foldl (fun B a => add_to_row B a sm 1 1) A) i c =
          if i ∈ l then A i c + A sm c else A i c := by
  intro l
  induction l with
  | nil => intro _ _ A i c; simp
  | cons a l ih =>
      intro hsm hnodup A i c
      have hsm_l : sm ∉ l := fun h => hsm (List.mem_cons_of_mem a h)
      have hsma : sm ≠ a := fun h => hsm (h ▸ List.mem_cons_self a l)
      have ha_l : a ∉ l := (List.nodup_cons.mp hnodup).1
      rw [List.foldl_cons, ih hsm_l (List.nodup_cons.mp hnodup).2]
      simp only [add_to_row_apply, hsma, if_false]
      by_cases hia : i = a
      · subst hia
        have hnotl : i ∉ l := ha_l
        simp [hnotl, List.mem_cons]
      · by_cases hil : i ∈ l <;> simp [List.mem_cons, hia, hil]

theorem foldl_add_to_col_apply (sn : Fin n) :
    ∀ l : List (Fin n), sn ∉ l → l.Nodup →
      ∀ (A : Mat m n) (i : Fin m) (c : Fin n),
        (l.foldl (fun B a => add_to_column B a sn 1 1) A) i c =
          if c ∈ l then A i c + A i sn else A i c := by
  intro l
  induction l with
  | nil => intro _ _ A i c; simp
  | cons a l ih =>
      intro hsn hnodup A i c
      have hsn_l : sn ∉ l := fun h => hsn (List.mem_cons_of_mem a h)
      have hsna : sn ≠ a := fun h => hsn (h ▸ List.mem_cons_self a l)
      have ha_l : a ∉ l := (List.nodup_cons.mp hnodup).1
      rw [List.foldl_cons, ih hsn_l (List.nodup_cons.mp hnodup).2]
      simp only [add_to_column_apply, hsna, if_false]
      by_cases hca : c = a
      · subst hca
        have hnotl : c ∉ l := ha_l
        simp [hnotl, List.mem_cons]
      · by_cases hcl : c ∈ l <;> simp [List.mem_cons, hca, hcl]

theorem snfRegion_rswap {s : ℕ} {A : Mat m n} (hreg : snfRegion s A) {i j : Fin m}
    (hi : s ≤ i.val) (hj : s ≤ j.val) : snfRegion s (_rswap i j A) := by
  intro a b hab
  rw [_rswap_apply]
  by_cases ha : a.val < s
  · have hai : a ≠ i := fun h => by subst h; omega
    have haj : a ≠ j := fun h => by subst h; omega
    rw [Equiv.swap_apply_of_ne_of_ne hai haj]
    exact hreg a b hab
  · have hb : b.val < s := by
      rcases hab with h | h
      · omega
      · exact h
    have ha' : s ≤ (Equiv.swap i j a).val := by
      by_cases h1 : a = i
      · rw [h1, Equiv.swap_apply_left]
        exact hj
      · by_cases h2 : a = j
        · rw [h2, Equiv.swap_apply_right]
          exact hi
        · rw [Equiv.swap_apply_of_ne_of_ne h1 h2]
          omega
    rw [hreg _ b (Or.inr hb), if_neg (by omega), if_neg (by omega)]

theorem snfRegion_cswap {s : ℕ} {A : Mat m n} (hreg : snfRegion s A) {i j : Fin n}
    (hi : s ≤ i.val) (hj : s ≤ j.val) : snfRegion s (_cswap i j A) := by
  intro a b hab
  rw [_cswap_apply]
  by_cases hb : b.val < s
  · have hbi : b ≠ i := fun h => by subst h; omega
    have hbj : b ≠ j := fun h => by subst h; omega
    rw [Equiv.swap_apply_of_ne_of_ne hbi hbj]
    exact hreg a b hab
  · have ha : a.val < s := by
      rcases hab with h | h
      · exact h
      · omega
    have hb' : s ≤ (Equiv.swap i j b).val := by
      by_cases h1 : b = i
      · rw [h1, Equiv.swap_apply_left]
        exact hj
      · by_cases h2 : b = j
        · rw [h2, Equiv.swap_apply_right]
          exact hi
        · rw [Equiv.swap_apply_of_ne_of_ne h1 h2]
          omega
    rw [hreg a _ (Or.inl ha), if_neg (by omega), if_neg (by omega)]

theorem snfRegion_addRow {s : ℕ} {A : Mat m n} (hreg : snfRegion s A) {a sm : Fin m}
    (ha : s ≤ a.val) (hsm : s ≤ sm.val) : snfRegion s (add_to_row A a sm 1 1) := by
  intro i j hij
  rw [add_to_row_apply]
  by_cases hia : i = a
  · subst hia
    have hj : j.val < s := by
      rcases hij with h | h
      · omega
      · exact h
    rw [if_pos rfl, hreg i j (Or.inr hj), hreg sm j (Or.inr hj),
      if_neg (by omega), if_neg (by omega), add_zero]
  · rw [if_neg hia]
    exact hreg i j hij

theorem snfRegion_addCol {s : ℕ} {A : Mat m n} (hreg : snfRegion s A) {a sn : Fin n}
    (ha : s ≤ a.val) (hsn : s ≤ sn.val) : snfRegion s (add_to_column A a sn 1 1) := by
  intro i j hij
  rw [add_to_column_apply]
  by_cases hja : j = a
  · subst hja
    have hi : i.val < s := by
      rcases hij with h | h
      · exact h
      · omega
    rw [if_pos rfl, hreg i j (Or.inl hi), hreg i sn (Or.inl hi),
      if_neg (by omega), if_neg (by omega), add_zero]
  · rw [if_neg hja]
    exact hreg i j hij

theorem mem_elimFilter_row {s : ℕ} {A : Mat m n} {sn : Fin n} {i : Fin m} :
    (i ∈ (List.finRange m).filter (fun i => decide (s + 1 ≤ i.val ∧ A i sn = 1))) ↔
      (s + 1 ≤ i.val ∧ A i sn = 1) := by
  rw [List.mem_filter]
  simp [List.mem_finRange]

theorem mem_elimFilter_col {s : ℕ} {A : Mat m n} {sm : Fin m} {j : Fin n} :
    (j ∈ (List.finRange n).filter (fun j => decide (s + 1 ≤ j.val ∧ A sm j = 1))) ↔
      (s + 1 ≤ j.val ∧ A sm j = 1) := by
  rw [List.mem_filter]
  simp [List.mem_finRange]

theorem snfElimRows_S_apply (s : ℕ) (hm : s < m) (hn : s < n) (st : SNFState m n)
    (i : Fin m) (j : Fin n) :
    (snfElimRows s hm hn st).S i j =
      if i ∈ (List.finRange m).filter
          (fun i => decide (s + 1 ≤ i.val ∧ st.S i ⟨s, hn⟩ = 1))
      then st.S i j + st.S ⟨s, hm⟩ j else st.S i j := by
  unfold snfElimRows
  rw [foldl_S_snfRowAdd]
  refine foldl_add_to_row_apply ⟨s, hm⟩ _ ?_ ?_ st.S i j
  · intro hmem
    have hval := (mem_elimFilter_row.mp hmem).1
    have hv : (⟨s, hm⟩ : Fin m).val = s := rfl
    omega
  · exact List.Nodup.filter _ (List.nodup_finRange m)

theorem snfElimCols_S_apply (s : ℕ) (hm : s < m) (hn : s < n) (st : SNFState m n)
    (i : Fin m) (j : Fin n) :
    (snfElimCols s hm hn st).S i j =
      if j ∈ (List.finRange n).filter
          (fun j => decide (s + 1 ≤ j.val ∧ st.S ⟨s, hm⟩ j = 1))
      then st.S i j + st.S i ⟨s, hn⟩ else st.S i j := by
  unfold snfElimCols
  rw [foldl_S_snfColAdd]
  refine foldl_add_to_col_apply ⟨s, hn⟩ _ ?_ ?_ st.S i j
  · intro hmem
    have hval := (mem_elimFilter_col.mp hmem).1
    have hv : (⟨s, hn⟩ : Fin n).val = s := rfl
    omega
  · exact List.Nodup.filter _ (List.nodup_finRange n)

theorem snfElim_region {s : ℕ} (hm : s < m) (hn : s < n) (st : SNFState m n)
    (hreg : snfRegion s st.S) (hpiv : st.S ⟨s, hm⟩ ⟨s, hn⟩ = 1) :
    snfRegion (s + 1) (snfElimCols s hm hn (snfElimRows s hm hn st)).S := by
  have hsmv : (⟨s, hm⟩ : Fin m).val = s := rfl
  have hsnv : (⟨s, hn⟩ : Fin n).val = s := rfl
  have h3S := snfElimRows_S_apply s hm hn st
  have hreg3 : snfRegion s (snfElimRows s hm hn st).S := by
    intro i j hij
    rw [h3S i j]
    by_cases hil : i ∈ (List.finRange m).filter
        (fun i => decide (s + 1 ≤ i.val ∧ st.S i ⟨s, hn⟩ = 1))
    · have hi1 := (mem_elimFilter_row.mp hil).1
      have hj : j.val < s := by
        rcases hij with h | h
        · omega
        · exact h
      rw [if_pos hil, hreg i j (Or.inr hj), hreg ⟨s, hm⟩ j (Or.inr hj),
        if_neg (by omega), if_neg (by omega), add_zero]
    · rw [if_neg hil]
      exact hreg i j hij
  have h3row : ∀ j : Fin n, (snfElimRows s hm hn st).S ⟨s, hm⟩ j = st.S ⟨s, hm⟩ j := by
    intro j
    have hnotmem : (⟨s, hm⟩ : Fin m) ∉ (List.finRange m).filter
        (fun i => decide (s + 1 ≤ i.val ∧ st.S i ⟨s, hn⟩ = 1)) := by
      intro hmem
      have := (mem_elimFilter_row.mp hmem).1
      omega
    rw [h3S, if_neg hnotmem]
  have h3piv : (snfElimRows s hm hn st).S ⟨s, hm⟩ ⟨s, hn⟩ = 1 := by
    rw [h3row]
    exact hpiv
  have h3below : ∀ i : Fin m, s < i.val → (snfElimRows s hm hn st).S i ⟨s, hn⟩ = 0 := by
    intro i hi
    rw [h3S i ⟨s, hn⟩]
    by_cases hil : i ∈ (List.finRange m).filter
        (fun i => decide (s + 1 ≤ i.val ∧ st.S i ⟨s, hn⟩ = 1))
    · rw [if_pos hil, (mem_elimFilter_row.mp hil).2, hpiv]
      exact zmod2_add_self 1
    · rw [if_neg hil]
      refine zmod2_eq_zero_of_ne_one _ ?_
      intro h1
      exact hil (mem_elimFilter_row.mpr ⟨by omega, h1⟩)
  have h4S := snfElimCols_S_apply s hm hn (snfElimRows s hm hn st)
  intro i j hij
  rw [h4S i j]
  by_cases hjc : j ∈ (List.finRange n).filter
      (fun j => decide (s + 1 ≤ j.val ∧ (snfElimRows s hm hn st).S ⟨s, hm⟩ j = 1))
  · have hj1 := (mem_elimFilter_col.mp hjc).1
    have hi1 : i.val < s + 1 := by
      rcases hij with h | h
      · exact h
      · omega
    by_cases his : i.val = s
    · have hieq : i = ⟨s, hm⟩ := Fin.ext his
      rw [if_pos hjc, hieq, (mem_elimFilter_col.mp hjc).2, h3piv, if_neg (by omega)]
      exact zmod2_add_self 1
    · have hilow : i.val < s := by omega
      rw [if_pos hjc, hreg3 i j (Or.inl hilow), hreg3 i ⟨s, hn⟩ (Or.inl hilow),
        if_neg (by omega), if_neg (by omega), add_zero]
  · rw [if_neg hjc]
    by_cases hjs : j.val < s
    · exact hreg3 i j (Or.inr hjs)
    · by_cases hjeq : j.val = s
      · have hjsn : j = ⟨s, hn⟩ := Fin.ext hjeq
        rw [hjsn]
        by_cases his : i.val < s
        · exact hreg3 i ⟨s, hn⟩ (Or.inl his)
        · by_cases hiseq : i.val = s
          · have hieq : i = ⟨s, hm⟩ := Fin.ext hiseq
            rw [hieq, h3piv, if_pos rfl]
          · rw [h3below i (by omega), if_neg (by omega)]
      · have hi1 : i.val < s + 1 := by
          rcases hij with h | h
          · exact h
          · omega
        by_cases his : i.val = s
        · have hieq : i = ⟨s, hm⟩ := Fin.ext his
          rw [hieq, if_neg (by omega)]
          refine zmod2_eq_zero_of_ne_one _ ?_
          intro h1
          exact hjc (mem_elimFilter_col.mpr ⟨by omega, h1⟩)
        · have hilow : i.val < s := by omega
          exact hreg3 i j (Or.inl hilow)

theorem snfStep_region {s : ℕ} (hm : s < m) (hn : s < n) (r : Fin m) (c : Fin n)
    (st : SNFState m n) (hreg : snfRegion s st.S)
    (hr : s ≤ r.val) (hc : s ≤ c.val) (hnz : st.S r c ≠ 0) :
    snfRegion (s + 1) (snfStep s hm hn r c st).S := by
  have hreg1 : snfRegion s (snfSwap1 s hm r st).S := by
    unfold snfSwap1
    by_cases h1 : s < r.val
    · rw [if_pos h1]
      exact snfRegion_rswap hreg (le_of_eq rfl) hr
    · rw [if_neg h1]
      exact hreg
  have h1v : (snfSwap1 s hm r st).S ⟨s, hm⟩ c = st.S r c := by
    unfold snfSwap1
    by_cases h1 : s < r.val
    · rw [if_pos h1]
      show _rswap ⟨s, hm⟩ r st.S ⟨s, hm⟩ c = st.S r c
      rw [_rswap_apply, Equiv.swap_apply_left]
    · rw [if_neg h1]
      have hre : r = ⟨s, hm⟩ := Fin.ext (show r.val = s by omega)
      rw [hre]
  have hreg2 : snfRegion s (snfSwap2 s hn c (snfSwap1 s hm r st)).S := by
    unfold snfSwap2
    by_cases h2 : s < c.val
    · rw [if_pos h2]
      exact snfRegion_cswap hreg1 (le_of_eq rfl) hc
    · rw [if_neg h2]
      exact hreg1
  have h2v : (snfSwap2 s hn c (snfSwap1 s hm r st)).S ⟨s, hm⟩ ⟨s, hn⟩ = st.S r c := by
    unfold snfSwap2
    by_cases h2 : s < c.val
    · rw [if_pos h2]
      show _cswap ⟨s, hn⟩ c (snfSwap1 s hm r st).S ⟨s, hm⟩ ⟨s, hn⟩ = st.S r c
      rw [_cswap_apply, Equiv.swap_apply_left, h1v]
    · rw [if_neg h2]
      have hce : c = ⟨s, hn⟩ := Fin.ext (show c.val = s by omega)
      rw [← hce, h1v]
  show snfRegion (s + 1)
    (snfElimCols s hm hn (snfElimRows s hm hn (snfSwap2 s hn c (snfSwap1 s hm r st)))).S
  refine snfElim_region hm hn _ hreg2 (zmod2_eq_one_of_ne_zero _ ?_)
  rw [h2v]
  exact hnz

theorem snfGo_shape :
    ∀ (k s : ℕ) (st : SNFState m n), min m n - s ≤ k → s ≤ min m n →
      snfRegion s st.S →
      ∃ t, t ≤ min m n ∧ diagShape t (snfGo st s).S := by
  intro k
  induction k with
  | zero =>
      intro s st hk hs hreg
      rw [snfGo.eq_def]
      have hns : ¬ s < min m n := by omega
      rw [dif_neg hns]
      refine ⟨min m n, le_refl _, ?_⟩
      intro i j
      have hi := i.isLt
      have hj := j.isLt
      have hcover : i.val < s ∨ j.val < s := by
        rcases le_total m n with hmn | hmn
        · left
          have hmin : min m n = m := min_eq_left hmn
          omega
        · right
          have hmin : min m n = n := min_eq_right hmn
          omega
      rw [hreg i j hcover]
      by_cases hij : i.val = j.val
      · rw [if_pos hij, if_pos ⟨hij, by omega⟩]
      · rw [if_neg hij, if_neg (fun h => hij h.1)]
  | succ k ih =>
      intro s st hk hs hreg
      rw [snfGo.eq_def]
      by_cases hlt : s < min m n
      · rw [dif_pos hlt]
        cases hpiv : _get_next_pivot st.S s none with
        | none =>
            refine ⟨s, by omega, ?_⟩
            have hz := (_get_next_pivot_none st.S s none).mp hpiv
            have hres : resolveStart s none = s := rfl
            intro i j
            by_cases hcover : i.val < s ∨ j.val < s
            · rw [hreg i j hcover]
              by_cases hij : i.val = j.val
              · rw [if_pos hij, if_pos ⟨hij, by omega⟩]
              · rw [if_neg hij, if_neg (fun h => hij h.1)]
            · push_neg at hcover
              rw [hz i j (by omega) (by omega), if_neg (fun h => absurd h.2 (by omega))]
        | some rc =>
            obtain ⟨r, c⟩ := rc
            obtain ⟨hr, hc, hnz, -⟩ := _get_next_pivot_some st.S s none r c hpiv
            exact ih (s + 1) _ (by omega) (by omega)
              (snfStep_region _ _ r c st hreg hr hc hnz)
      · rw [dif_neg hlt]
        refine ⟨min m n, le_refl _, ?_⟩
        intro i j
        have hi := i.isLt
        have hj := j.isLt
        have hcover : i.val < s ∨ j.val < s := by
          rcases le_total m n with hmn | hmn
          · left
            have hmin : min m n = m := min_eq_left hmn
            omega
          · right
            have hmin : min m n = n := min_eq_right hmn
            omega
        rw [hreg i j hcover]
        by_cases hij : i.val = j.val
        · rw [if_pos hij, if_pos ⟨hij, by omega⟩]
        · rw [if_neg hij, if_neg (fun h => hij h.1)]

/-- C1: `smith_normal_form_mod2(M)` returns `(L, R, S, Linv)` with
`L·M·R = S` (mod 2) and `S` diagonal with entries 0 or 1, the 1s occupying the
`t` leading diagonal positions followed by zeros. -/
theorem claim_C1 (M : Mat m n) :
    (smith_normal_form_mod2 M).L * M * (smith_normal_form_mod2 M).R
        = (smith_normal_form_mod2 M).S ∧
    ∃ t, t ≤ min m n ∧ ∀ (i : Fin m) (j : Fin n),
      (smith_normal_form_mod2 M).S i j = if i.val = j.val ∧ i.val < t then 1 else 0 := by
  constructor
  · exact (snf_basic M).1
  · have h0 : snfRegion 0 (⟨M, 1, 1, 1⟩ : SNFState m n).S := by
      intro i j hij
      exfalso
      rcases hij with h | h <;> omega
    obtain ⟨t, ht, hd⟩ := snfGo_shape (min m n) 0 ⟨M, 1, 1, 1⟩ (by omega) (by omega) h0
    exact ⟨t, ht, hd⟩

/-! ## Shape analysis of the row-echelon loop -/

theorem resolveStart_self (t : ℕ) : resolveStart t (some t) = t := by
  show (if t = 0 then t else t) = t
  exact ite_self t

theorem t_le_resolveStart {s1 t : ℕ} (h : t ≤ s1) : t ≤ resolveStart s1 (some t) := by
  show t ≤ if t = 0 then s1 else t
  by_cases ht : t = 0
  · rw [if_pos ht]
    omega
  · rw [if_neg ht]

theorem rrefFindPivot_some_spec (S : Mat m n) (s2 : ℕ) :
    ∀ (k s1₀ : ℕ) (s1 rdx : Fin m) (cdx : Fin n), m - s1₀ ≤ k →
      rrefFindPivot S s2 s1₀ = some (s1, rdx, cdx) →
      s1₀ ≤ s1.val ∧ _get_next_pivot S s1.val (some s2) = some (rdx, cdx) ∧
        ∀ s1' : ℕ, s1₀ ≤ s1' → s1' < s1.val → _get_next_pivot S s1' (some s2) = none := by
  intro k
  induction k with
  | zero =>
      intro s1₀ s1 rdx cdx hk h
      rw [rrefFindPivot.eq_def] at h
      have hns : ¬ s1₀ < m := by omega
      rw [dif_neg hns] at h
      cases h
  | succ k ih =>
      intro s1₀ s1 rdx cdx hk h
      rw [rrefFindPivot.eq_def] at h
      by_cases hs : s1₀ < m
      · rw [dif_pos hs] at h
        cases hpiv : _get_next_pivot S s1₀ (some s2) with
        | some rc =>
            rw [hpiv] at h
            obtain ⟨r0, c0⟩ := rc
            have h1 : s1 = ⟨s1₀, hs⟩ := (congrArg (fun x => x.1) (Option.some_injective _ h)).symm
            have h2 : rdx = r0 := (congrArg (fun x => x.2.1) (Option.some_injective _ h)).symm
            have h3 : cdx = c0 := (congrArg (fun x => x.2.2) (Option.some_injective _ h)).symm
            subst h1
            subst h2
            subst h3
            refine ⟨le_refl _, hpiv, ?_⟩
            intro s1' hge hlt
            have hv : (⟨s1₀, hs⟩ : Fin m).val = s1₀ := rfl
            omega
        | none =>
            rw [hpiv] at h
            obtain ⟨hge, hsome, hmin⟩ := ih (s1₀ + 1) s1 rdx cdx (by omega) h
            refine ⟨by omega, hsome, ?_⟩
            intro s1' hge' hlt'
            by_cases heq : s1' = s1₀
            · rw [heq]
              exact hpiv
            · exact hmin s1' (by omega) hlt'
      · rw [dif_neg hs] at h
        cases h

theorem rrefFindPivot_none_of_rowsZero (S : Mat m n) (s2 t₀ : ℕ)
    (hz : ∀ (i : Fin m) (j : Fin n), t₀ ≤ i.val → S i j = 0) :
    ∀ (k s1 : ℕ), m - s1 ≤ k → t₀ ≤ s1 → rrefFindPivot S s2 s1 = none := by
  intro k
  induction k with
  | zero =>
      intro s1 hk hge
      rw [rrefFindPivot.eq_def]
      have hns : ¬ s1 < m := by omega
      rw [dif_neg hns]
  | succ k ih =>
      intro s1 hk hge
      rw [rrefFindPivot.eq_def]
      by_cases hs : s1 < m
      · rw [dif_pos hs]
        have hnone : _get_next_pivot S s1 (some s2) = none := by
          rw [_get_next_pivot_none]
          intro i j hi hj
          exact hz i j (by omega)
        rw [hnone]
        exact ih (s1 + 1) (by omega) (by omega)
      · rw [dif_neg hs]

theorem mem_rrefFilter {s1 : Fin m} {cdx : Fin n} {A : Mat m n} {i : Fin m} :
    (i ∈ (List.finRange m).filter (fun i => decide (i ≠ s1 ∧ A i cdx = 1))) ↔
      (i ≠ s1 ∧ A i cdx = 1) := by
  rw [List.mem_filter]
  simp [List.mem_finRange]

theorem rrefElim_S_apply (s1 : Fin m) (cdx : Fin n) (st : RREFState m n)
    (i : Fin m) (j : Fin n) :
    (rrefElim s1 cdx st).S i j =
      if i ∈ (List.finRange m).filter (fun i => decide (i ≠ s1 ∧ st.S i cdx = 1))
      then st.S i j + st.S s1 j else st.S i j := by
  unfold rrefElim
  rw [foldl_S_rrefRowAdd]
  refine foldl_add_to_row_apply s1 _ ?_ ?_ st.S i j
  · intro hmem
    exact (mem_rrefFilter.mp hmem).1 rfl
  · exact List.Nodup.filter _ (List.nodup_finRange m)

/-- Mid-loop invariant of `reduced_row_echelon_form_mod2` while pivots are
still being placed: `t` pivot rows `0..t-1` with strictly increasing pivot
columns `cs 0 < cs 1 < ...`, each pivot column reduced to a standard basis
vector, each pivot row zero left of its pivot, and every row from `t` down
zero in all columns up to any pivot column. -/
def ActiveShape (t : ℕ) (cs : ℕ → ℕ) (S : Mat m n) : Prop :=
  (∀ q, q < t → q < m ∧ cs q < n ∧ q ≤ cs q) ∧
  (∀ q q', q < q' → q' < t → cs q < cs q') ∧
  (∀ (i : Fin m) (j : Fin n), i.val < t → j.val = cs i.val → S i j = 1) ∧
  (∀ (i : Fin m) (j : Fin n), i.val < t → j.val < cs i.val → S i j = 0) ∧
  (∀ (i : Fin m) (j : Fin n) (q : ℕ), q < t → q ≠ i.val → j.val = cs q → S i j = 0) ∧
  (∀ (i : Fin m) (j : Fin n) (q : ℕ), q < t → t ≤ i.val → j.val ≤ cs q → S i j = 0)

/-- Final structure of the matrix produced by `reduced_row_echelon_form_mod2`:
`p` nonzero rows in echelon position followed by all-zero rows. -/
def EchelonStruct (t : ℕ) (cs : ℕ → ℕ) (S : Mat m n) : Prop :=
  (∀ q, q < t → q < m ∧ cs q < n ∧ q ≤ cs q) ∧
  (∀ q q', q < q' → q' < t → cs q < cs q') ∧
  (∀ (i : Fin m) (j : Fin n), i.val < t → j.val = cs i.val → S i j = 1) ∧
  (∀ (i : Fin m) (j : Fin n), i.val < t → j.val < cs i.val → S i j = 0) ∧
  (∀ (i : Fin m) (j : Fin n) (q : ℕ), q < t → q ≠ i.val → j.val = cs q → S i j = 0) ∧
  (∀ (i : Fin m) (j : Fin n), t ≤ i.val → S i j = 0)

theorem rrefSwapStep_S_facts {t : ℕ} (st : RREFState m n) (s1 rdx : Fin m)
    (hs1 : s1.val = t) (hrdx : t ≤ rdx.val) :
    (∀ (i : Fin m) (j : Fin n), i.val < t → (rrefSwapStep s1 rdx st).S i j = st.S i j) ∧
    (∀ j : Fin n, (rrefSwapStep s1 rdx st).S s1 j = st.S rdx j) ∧
    (∀ i : Fin m, t ≤ i.val → ∃ i' : Fin m, t ≤ i'.val ∧
      ∀ j : Fin n, (rrefSwapStep s1 rdx st).S i j = st.S i' j) := by
  unfold rrefSwapStep
  by_cases hcase : s1.val < rdx.val
  · rw [if_pos hcase]
    refine ⟨?_, ?_, ?_⟩
    · intro i j hi
      show _rswap s1 rdx st.S i j = st.S i j
      rw [_rswap_apply, Equiv.swap_apply_of_ne_of_ne
        (fun h => by subst h; omega) (fun h => by subst h; omega)]
    · intro j
      show _rswap s1 rdx st.S s1 j = st.S rdx j
      rw [_rswap_apply, Equiv.swap_apply_left]
    · intro i hi
      refine ⟨Equiv.swap s1 rdx i, ?_, ?_⟩
      · by_cases h1 : i = s1
        · rw [h1, Equiv.swap_apply_left]
          exact hrdx
        · by_cases h2 : i = rdx
          · rw [h2, Equiv.swap_apply_right]
            omega
          · rw [Equiv.swap_apply_of_ne_of_ne h1 h2]
            exact hi
      · intro j
        show _rswap s1 rdx st.S i j = st.S (Equiv.swap s1 rdx i) j
        rw [_rswap_apply]
  · rw [if_neg hcase]
    have hrs : rdx = s1 := Fin.ext (by omega)
    refine ⟨fun i j _ => rfl, ?_, fun i hi => ⟨i, hi, fun j => rfl⟩⟩
    intro j
    rw [hrs]

theorem rrefStep_active {t : ℕ} {st : RREFState m n} {cs : ℕ → ℕ}
    (hA : ActiveShape t cs st.S) :
    (∃ cs', ActiveShape (t + 1) cs' (rrefStep t st).S) ∨
      (∃ p cs', EchelonStruct p cs' (rrefStep t st).S ∧ p ≤ t) := by
  obtain ⟨hA1, hA2, hA3, hA4, hA5, hA6⟩ := hA
  cases hfp : rrefFindPivot st.S t t with
  | none =>
      right
      have hstep : rrefStep t st = st := by
        unfold rrefStep
        rw [hfp]
      rw [hstep]
      refine ⟨t, cs, ⟨hA1, hA2, hA3, hA4, hA5, ?_⟩, le_refl t⟩
      intro i j hi
      by_cases htm : t < m
      · rw [rrefFindPivot.eq_def, dif_pos htm] at hfp
        cases hgp : _get_next_pivot st.S t (some t) with
        | some rc =>
            rw [hgp] at hfp
            cases hfp
        | none =>
            have hz := (_get_next_pivot_none st.S t (some t)).mp hgp
            rw [resolveStart_self] at hz
            by_cases hjt : t ≤ j.val
            · exact hz i j hi hjt
            · have ht1 : 1 ≤ t := by omega
              refine hA6 i j (t - 1) (by omega) hi ?_
              have := (hA1 (t - 1) (by omega)).2.2
              omega
      · exact absurd i.isLt (by omega)
  | some x =>
      obtain ⟨s1, rdx, cdx⟩ := x
      left
      have hstep : rrefStep t st = rrefElim s1 cdx (rrefSwapStep s1 rdx st) := by
        unfold rrefStep
        rw [hfp]
      rw [hstep]
      obtain ⟨hge, hsome, hmin⟩ :=
        rrefFindPivot_some_spec st.S t m t s1 rdx cdx (by omega) hfp
      have hs1t : s1.val = t := by
        by_contra hne
        have hlt : t < s1.val := by omega
        have hnone := hmin t (le_refl t) hlt
        have hz := (_get_next_pivot_none st.S t (some t)).mp hnone
        rw [resolveStart_self] at hz
        obtain ⟨hr1, hr2, hr3, -⟩ := _get_next_pivot_some st.S s1.val (some t) rdx cdx hsome
        refine hr3 (hz rdx cdx (by omega) ?_)
        have := t_le_resolveStart (le_of_lt hlt)
        omega
      rw [hs1t] at hsome
      obtain ⟨hrdx, hcdx0, hnz, hminz⟩ := _get_next_pivot_some st.S t (some t) rdx cdx hsome
      rw [resolveStart_self] at hcdx0 hminz
      have hcs_lt : ∀ q, q < t → cs q < cdx.val := by
        intro q hq
        by_contra hle
        push_neg at hle
        exact hnz (hA6 rdx cdx q hq (by omega) hle)
      obtain ⟨W1, W2, W3⟩ := rrefSwapStep_S_facts st s1 rdx hs1t hrdx
      have hd : ∀ (i : Fin m) (j : Fin n), t ≤ i.val → j.val < cdx.val →
          (rrefSwapStep s1 rdx st).S i j = 0 := by
        intro i j hi hj
        obtain ⟨i', hi', hij⟩ := W3 i hi
        rw [hij j]
        by_cases hjt : t ≤ j.val
        · exact hminz i' j hi' hjt (Or.inl hj)
        · have ht1 : 1 ≤ t := by omega
          refine hA6 i' j (t - 1) (by omega) hi' ?_
          have := (hA1 (t - 1) (by omega)).2.2
          omega
      have hpiv1 : (rrefSwapStep s1 rdx st).S s1 cdx = 1 := by
        rw [W2]
        exact zmod2_eq_one_of_ne_zero _ hnz
      have hrow1zero : ∀ j : Fin n, j.val < cdx.val →
          (rrefSwapStep s1 rdx st).S s1 j = 0 :=
        fun j hj => hd s1 j (by omega) hj
      have hB3 : ∀ (i : Fin m) (j : Fin n), i.val < t → j.val = cs i.val →
          (rrefSwapStep s1 rdx st).S i j = 1 := by
        intro i j hi hj
        rw [W1 i j hi]
        exact hA3 i j hi hj
      have hB4 : ∀ (i : Fin m) (j : Fin n), i.val < t → j.val < cs i.val →
          (rrefSwapStep s1 rdx st).S i j = 0 := by
        intro i j hi hj
        rw [W1 i j hi]
        exact hA4 i j hi hj
      have hB5 : ∀ (i : Fin m) (j : Fin n) (q : ℕ), q < t → q ≠ i.val → j.val = cs q →
          (rrefSwapStep s1 rdx st).S i j = 0 := by
        intro i j q hq hqi hj
        by_cases hit : i.val < t
        · rw [W1 i j hit]
          exact hA5 i j q hq hqi hj
        · obtain ⟨i', hi', hij⟩ := W3 i (by omega)
          rw [hij j]
          exact hA5 i' j q hq (by omega) hj
      have hES := rrefElim_S_apply s1 cdx (rrefSwapStep s1 rdx st)
      refine ⟨fun q => if q = t then cdx.val else cs q, ?_, ?_, ?_, ?_, ?_, ?_⟩
      · intro q hq
        dsimp only
        by_cases hqt : q = t
        · subst hqt
          rw [if_pos rfl]
          exact ⟨hs1t ▸ s1.isLt, cdx.isLt, by omega⟩
        · rw [if_neg hqt]
          exact hA1 q (by omega)
      · intro q q' hqq hq'
        dsimp only
        by_cases hq't : q' = t
        · subst hq't
          rw [if_neg (by omega), if_pos rfl]
          exact hcs_lt q (by omega)
        · rw [if_neg (by omega), if_neg hq't]
          exact hA2 q q' hqq (by omega)
      · intro i j hi hj
        dsimp only at hj
        by_cases hit : i.val = t
        · rw [if_pos hit] at hj
          have hieq : i = s1 := Fin.ext (by omega)
          have hjeq : j = cdx := Fin.ext hj
          rw [hieq, hjeq, hES s1 cdx, if_neg (fun hmem => (mem_rrefFilter.mp hmem).1 rfl)]
          exact hpiv1
        · rw [if_neg hit] at hj
          have hit' : i.val < t := by omega
          rw [hES i j]
          by_cases hmem : i ∈ (List.finRange m).filter
              (fun i => decide (i ≠ s1 ∧ (rrefSwapStep s1 rdx st).S i cdx = 1))
          · rw [if_pos hmem, hB3 i j hit' hj,
              hB5 s1 j i.val hit' (by omega) hj, add_zero]
          · rw [if_neg hmem]
            exact hB3 i j hit' hj
      · intro i j hi hj
        dsimp only at hj
        by_cases hit : i.val = t
        · rw [if_pos hit] at hj
          have hieq : i = s1 := Fin.ext (by omega)
          rw [hieq, hES s1 j, if_neg (fun hmem => (mem_rrefFilter.mp hmem).1 rfl)]
          exact hrow1zero j hj
        · rw [if_neg hit] at hj
          have hit' : i.val < t := by omega
          rw [hES i j]
          by_cases hmem : i ∈ (List.finRange m).filter
              (fun i => decide (i ≠ s1 ∧ (rrefSwapStep s1 rdx st).S i cdx = 1))
          · rw [if_pos hmem, hB4 i j hit' hj,
              hrow1zero j (by have := hcs_lt i.val hit'; omega), add_zero]
          · rw [if_neg hmem]
            exact hB4 i j hit' hj
      · intro i j q hq hqi hj
        dsimp only at hj
        by_cases hqt : q = t
        · subst hqt
          rw [if_pos rfl] at hj
          have hjeq : j = cdx := Fin.ext hj
          have hine : i ≠ s1 := by
            intro h
            rw [h] at hqi
            omega
          rw [hjeq, hES i cdx]
          by_cases hmem : i ∈ (List.finRange m).filter
              (fun i => decide (i ≠ s1 ∧ (rrefSwapStep s1 rdx st).S i cdx = 1))
          · rw [if_pos hmem, (mem_rrefFilter.mp hmem).2, hpiv1]
            exact zmod2_add_self 1
          · rw [if_neg hmem]
            refine zmod2_eq_zero_of_ne_one _ ?_
            intro h1
            exact hmem (mem_rrefFilter.mpr ⟨hine, h1⟩)
        · rw [if_neg hqt] at hj
          have hq' : q < t := by omega
          rw [hES i j]
          by_cases hmem : i ∈ (List.finRange m).filter
              (fun i => decide (i ≠ s1 ∧ (rrefSwapStep s1 rdx st).S i cdx = 1))
          · rw [if_pos hmem, hB5 i j q hq' hqi hj,
              hB5 s1 j q hq' (by omega) hj, add_zero]
          · rw [if_neg hmem]
            exact hB5 i j q hq' hqi hj
      · intro i j q hq hi hj
        dsimp only at hj
        have hine : i ≠ s1 := by
          intro h
          rw [h] at hi
          omega
        have hjle : j.val ≤ cdx.val := by
          by_cases hqt : q = t
          · rw [if_pos hqt] at hj
            exact hj
          · rw [if_neg hqt] at hj
            have := hcs_lt q (by omega)
            omega
        by_cases hjc : j = cdx
        · rw [hjc, hES i cdx]
          by_cases hmem : i ∈ (List.finRange m).filter
              (fun i => decide (i ≠ s1 ∧ (rrefSwapStep s1 rdx st).S i cdx = 1))
          · rw [if_pos hmem, (mem_rrefFilter.mp hmem).2, hpiv1]
            exact zmod2_add_self 1
          · rw [if_neg hmem]
            refine zmod2_eq_zero_of_ne_one _ ?_
            intro h1
            exact hmem (mem_rrefFilter.mpr ⟨hine, h1⟩)
        · have hjlt : j.val < cdx.val := by
            have : j.val ≠ cdx.val := fun h => hjc (Fin.ext h)
            omega
          rw [hES i j]
          by_cases hmem : i ∈ (List.finRange m).filter
              (fun i => decide (i ≠ s1 ∧ (rrefSwapStep s1 rdx st).S i cdx = 1))
          · rw [if_pos hmem, hd i j (by omega) hjlt, hrow1zero j hjlt, add_zero]
          · rw [if_neg hmem]
            exact hd i j (by omega) hjlt

/-- Disjunction carried through the outer loop: either `t` pivots have been
placed so far, or the matrix is already fully reduced with `p ≤ t` pivots. -/
def RREFMidInv (t : ℕ) (S : Mat m n) : Prop :=
  (∃ cs, ActiveShape t cs S) ∨ ∃ p cs, EchelonStruct p cs S ∧ p ≤ t

theorem rrefStep_done {p : ℕ} {cs : ℕ → ℕ} {st : RREFState m n} {t : ℕ}
    (hE : EchelonStruct p cs st.S) (hpt : p ≤ t) : rrefStep t st = st := by
  unfold rrefStep
  have hnone : rrefFindPivot st.S t t = none := by
    refine rrefFindPivot_none_of_rowsZero st.S t p ?_ m t (by omega) (by omega)
    intro i j hi
    exact hE.2.2.2.2.2 i j hi
  rw [hnone]

theorem activeShape_to_struct {t : ℕ} {cs : ℕ → ℕ} {S : Mat m n} (ht : n ≤ t)
    (hA : ActiveShape t cs S) : EchelonStruct t cs S := by
  obtain ⟨h1, h2, h3, h4, h5, h6⟩ := hA
  refine ⟨h1, h2, h3, h4, h5, ?_⟩
  intro i j hi
  have hj := j.isLt
  have ht1 : 1 ≤ t := by omega
  refine h6 i j (t - 1) (by omega) hi ?_
  have := (h1 (t - 1) (by omega)).2.2
  omega

theorem rrefGo_mid :
    ∀ (k t : ℕ) (st : RREFState m n), n - t ≤ k → RREFMidInv t st.S →
      ∃ p cs, EchelonStruct p cs (rrefGo st t).S := by
  intro k
  induction k with
  | zero =>
      intro t st hk hinv
      rw [rrefGo.eq_def, if_neg (by omega)]
      rcases hinv with ⟨cs, hA⟩ | ⟨p, cs, hE, -⟩
      · exact ⟨t, cs, activeShape_to_struct (by omega) hA⟩
      · exact ⟨p, cs, hE⟩
  | succ k ih =>
      intro t st hk hinv
      rw [rrefGo.eq_def]
      by_cases ht : t < n
      · rw [if_pos ht]
        refine ih (t + 1) _ (by omega) ?_
        rcases hinv with ⟨cs, hA⟩ | ⟨p, cs, hE, hpt⟩
        · rcases rrefStep_active hA with ⟨cs', hA'⟩ | ⟨p, cs', hE', hpt⟩
          · exact Or.inl ⟨cs', hA'⟩
          · exact Or.inr ⟨p, cs', hE', by omega⟩
        · rw [rrefStep_done hE hpt]
          exact Or.inr ⟨p, cs, hE, by omega⟩
      · rw [if_neg ht]
        rcases hinv with ⟨cs, hA⟩ | ⟨p, cs, hE, -⟩
        · exact ⟨t, cs, activeShape_to_struct (by omega) hA⟩
        · exact ⟨p, cs, hE⟩

theorem rref_struct (M : Mat m n) :
    ∃ p cs, EchelonStruct p cs (reduced_row_echelon_form_mod2 M).S := by
  have h0 : RREFMidInv 0 (⟨M, 1, 1⟩ : RREFState m n).S := by
    left
    refine ⟨fun _ => 0, ?_, ?_, ?_, ?_, ?_, ?_⟩
    · intro q hq
      exact absurd hq (Nat.not_lt_zero q)
    · intro q q' h h'
      exact absurd h' (Nat.not_lt_zero q')
    · intro i j hi
      exact absurd hi (Nat.not_lt_zero _)
    · intro i j hi
      exact absurd hi (Nat.not_lt_zero _)
    · intro i j q hq
      exact absurd hq (Nat.not_lt_zero q)
    · intro i j q hq
      exact absurd hq (Nat.not_lt_zero q)
  exact rrefGo_mid n 0 ⟨M, 1, 1⟩ (by omega) h0

/-- A column position carrying the leading 1 of a row vector: the entry there
is nonzero and every entry strictly left of it is zero. -/
def isLeading (v : Fin n → ZMod 2) (c : Fin n) : Prop :=
  v c ≠ 0 ∧ ∀ c' : Fin n, c'.val < c.val → v c' = 0

/-- Row-echelon form as the claim states it: all-zero rows come after all
nonzero rows, and every nonzero row's leading 1 lies strictly right of the
leading 1 of any nonzero row above it. -/
def RowEchelon (S : Mat m n) : Prop :=
  (∀ i₁ i₂ : Fin m, i₁ ≤ i₂ → S i₁ = 0 → S i₂ = 0) ∧
  (∀ i₁ i₂ : Fin m, i₁ < i₂ → ∀ c₁ c₂ : Fin n, isLeading (S i₁) c₁ →
    isLeading (S i₂) c₂ → c₁.val < c₂.val)

/-- C3: `reduced_row_echelon_form_mod2(M)` returns `(L, S, Linv)` with
`L·M = S` (mod 2) and `S` in row-echelon form: every nonzero row's leading 1
lies strictly right of the leading 1 of the nonzero row above it, and all-zero
rows come after all nonzero rows. -/
theorem claim_C3 (M : Mat m n) :
    (reduced_row_echelon_form_mod2 M).L * M = (reduced_row_echelon_form_mod2 M).S ∧
    RowEchelon (reduced_row_echelon_form_mod2 M).S := by
  refine ⟨(rref_basic M).1, ?_⟩
  obtain ⟨p, cs, h1, h2, h3, h4, h5, h6⟩ := rref_struct M
  have key : ∀ (i : Fin m) (c : Fin n), i.val < p →
      isLeading ((reduced_row_echelon_form_mod2 M).S i) c → c.val = cs i.val := by
    intro i c hi hl
    by_cases hc : c.val < cs i.val
    · exact absurd (h4 i c hi hc) hl.1
    · by_cases hc2 : c.val = cs i.val
      · exact hc2
      · exfalso
        have hbound := (h1 i.val hi).2.1
        have hlt2 : cs i.val < c.val := by omega
        have hz := hl.2 ⟨cs i.val, hbound⟩ hlt2
        rw [h3 i ⟨cs i.val, hbound⟩ hi rfl] at hz
        exact one_ne_zero hz
  constructor
  · intro i₁ i₂ hle hz
    by_cases h : i₂.val < p
    · exfalso
      have hv : i₁.val ≤ i₂.val := hle
      have hi₁ : i₁.val < p := by omega
      have hcs := h1 i₁.val hi₁
      have hone : (reduced_row_echelon_form_mod2 M).S i₁ ⟨cs i₁.val, hcs.2.1⟩ = 1 :=
        h3 i₁ ⟨cs i₁.val, hcs.2.1⟩ hi₁ rfl
      rw [hz] at hone
      rw [Pi.zero_apply] at hone
      exact zero_ne_one hone
    · funext j
      exact h6 i₂ j (by omega)
  · intro i₁ i₂ hlt c₁ c₂ hl₁ hl₂
    have hv : i₁.val < i₂.val := hlt
    have hi₂ : i₂.val < p := by
      by_contra h
      exact hl₂.1 (h6 i₂ c₂ (by omega))
    have hi₁ : i₁.val < p := by omega
    rw [key i₁ c₁ hi₁ hl₁, key i₂ c₂ hi₂ hl₂]
    exact h2 i₁.val i₂.val hv hi₂

/-! ## matsumreduce on 2-D integer arrays, with numpy broadcasting -/

/-- A 2-D numpy integer array: shape plus entries. -/
structure NPMat where
  rows : ℕ
  cols : ℕ
  entry : Fin rows → Fin cols → ℤ

/-- The dimension that results from broadcasting two compatible dimensions:
a dimension of 1 stretches to the other (numpy also broadcasts 1 against 0,
giving 0). -/
def bdim (d1 d2 : ℕ) : ℕ := if d1 = 1 then d2 else d1

/-- The source index used along a broadcast dimension. -/
def bcastIdx (d i : ℕ) : ℕ := if d = 1 then 0 else i

theorem bcastIdx_lt {d1 d2 i : ℕ} (hi : i < bdim d1 d2) : bcastIdx d1 i < d1 := by
  unfold bcastIdx
  unfold bdim at hi
  by_cases h : d1 = 1
  · rw [if_pos h]
    omega
  · rw [if_neg h]
    rw [if_neg h] at hi
    exact hi

theorem bcastIdx_lt' {d1 d2 i : ℕ} (h : d1 = d2 ∨ d1 = 1 ∨ d2 = 1)
    (hi : i < bdim d1 d2) : bcastIdx d2 i < d2 := by
  unfold bcastIdx
  unfold bdim at hi
  by_cases h2 : d2 = 1
  · rw [if_pos h2]
    omega
  · rw [if_neg h2]
    rcases h with h | h | h
    · rw [← h]
      rw [if_neg (by omega)] at hi
      exact hi
    · rw [if_pos h] at hi
      exact hi
    · exact absurd h h2

/-- Elementwise addition of two 2-D arrays under numpy's broadcasting rules;
`none` models the `ValueError` numpy raises for incompatible shapes. -/
def broadcastAdd (A B : NPMat) : Option NPMat :=
  if h : (A.rows = B.rows ∨ A.rows = 1 ∨ B.rows = 1) ∧
      (A.cols = B.cols ∨ A.cols = 1 ∨ B.cols = 1) then
    some ⟨bdim A.rows B.rows, bdim A.cols B.cols, fun i j =>
      A.entry ⟨bcastIdx A.rows i.val, bcastIdx_lt i.isLt⟩
          ⟨bcastIdx A.cols j.val, bcastIdx_lt j.isLt⟩ +
        B.entry ⟨bcastIdx B.rows i.val, bcastIdx_lt' h.1 i.isLt⟩
          ⟨bcastIdx B.cols j.val, bcastIdx_lt' h.2 j.isLt⟩⟩
  else none

/-- Entrywise reduction mod 2, numpy's `np.mod(..., [2])`. -/
def modMat2 (A : NPMat) : NPMat :=
  ⟨A.rows, A.cols, fun i j => A.entry i j % 2⟩

/-- Source `matsumreduce(arr, mod=2)`: start from `arr[0]` (the `IndexError`
on an empty list is modelled as `none`) and repeatedly form
`np.mod(S + arr[i], [2])`, whose `+` broadcasts. -/
def msStep (acc : Option NPMat) (a : NPMat) : Option NPMat :=
  acc.bind (fun S => (broadcastAdd S a).map modMat2)

def matsumreduce (arr : List NPMat) : Option NPMat :=
  match arr with
  | [] => none
  | S :: rest => rest.foldl msStep (some S)

/-- Bounds-checked entry access (0 outside the shape), used to state results
about `NPMat` without dependent index juggling. -/
def NPMat.at (A : NPMat) (i j : ℕ) : ℤ :=
  if h : i < A.rows ∧ j < A.cols then A.entry ⟨i, h.1⟩ ⟨j, h.2⟩ else 0

theorem bcastIdx_self {d i : ℕ} (hi : i < d) : bcastIdx d i = i := by
  unfold bcastIdx
  by_cases h : d = 1
  · rw [if_pos h]
    omega
  · rw [if_neg h]

theorem matsum_step {r c : ℕ} (S B : NPMat) (hSr : S.rows = r) (hSc : S.cols = c)
    (hBr : B.rows = r) (hBc : B.cols = c) :
    ∃ T, msStep (some S) B = some T ∧ T.rows = r ∧ T.cols = c ∧
      ∀ i j, i < r → j < c → T.at i j = (S.at i j + B.at i j) % 2 := by
  have hcompat : (S.rows = B.rows ∨ S.rows = 1 ∨ B.rows = 1) ∧
      (S.cols = B.cols ∨ S.cols = 1 ∨ B.cols = 1) :=
    ⟨Or.inl (by omega), Or.inl (by omega)⟩
  have hbr : bdim S.rows B.rows = r := by
    unfold bdim
    split <;> omega
  have hbc : bdim S.cols B.cols = c := by
    unfold bdim
    split <;> omega
  refine ⟨⟨bdim S.rows B.rows, bdim S.cols B.cols, fun i j =>
      (S.entry ⟨bcastIdx S.rows i.val, bcastIdx_lt i.isLt⟩
          ⟨bcastIdx S.cols j.val, bcastIdx_lt j.isLt⟩ +
        B.entry ⟨bcastIdx B.rows i.val, bcastIdx_lt' hcompat.1 i.isLt⟩
          ⟨bcastIdx B.cols j.val, bcastIdx_lt' hcompat.2 j.isLt⟩) % 2⟩,
    ?_, hbr, hbc, ?_⟩
  · unfold msStep broadcastAdd
    rw [Option.some_bind, dif_pos hcompat]
    rfl
  · intro i j hi hj
    unfold NPMat.at
    dsimp only
    rw [dif_pos (show i < bdim S.rows B.rows ∧ j < bdim S.cols B.cols by omega),
      dif_pos (show i < S.rows ∧ j < S.cols by omega),
      dif_pos (show i < B.rows ∧ j < B.cols by omega)]
    exact congrArg (fun z => z % 2)
      (congr_arg₂ (fun a b => a + b)
        (congr_arg₂ S.entry (Fin.ext (bcastIdx_self (by omega)))
          (Fin.ext (bcastIdx_self (by omega))))
        (congr_arg₂ B.entry (Fin.ext (bcastIdx_self (by omega)))
          (Fin.ext (bcastIdx_self (by omega)))))

theorem matsum_fold {r c : ℕ} :
    ∀ (rest : List NPMat) (S : NPMat) (f : ℕ → ℕ → ℤ),
      (∀ A ∈ rest, A.rows = r ∧ A.cols = c) →
      S.rows = r → S.cols = c →
      (∀ i j, i < r → j < c → S.at i j = f i j % 2) →
      ∃ C, rest.foldl msStep (some S) = some C ∧ C.rows = r ∧ C.cols = c ∧
        ∀ i j, i < r → j < c →
          C.at i j = (f i j + ((rest.map (fun A => A.at i j)).sum)) % 2 := by
  intro rest
  induction rest with
  | nil =>
      intro S f _ h1 h2 h3
      refine ⟨S, rfl, h1, h2, ?_⟩
      intro i j hi hj
      rw [h3 i j hi hj]
      simp
  | cons B rest ih =>
      intro S f hall h1 h2 h3
      obtain ⟨T, hT, hTr, hTc, hTat⟩ :=
        matsum_step S B h1 h2 (hall B (List.mem_cons_self B rest)).1
          (hall B (List.mem_cons_self B rest)).2
      rw [List.foldl_cons, hT]
      obtain ⟨C, hC, hCr, hCc, hCat⟩ := ih T (fun i j => f i j + B.at i j)
        (fun A hA => hall A (List.mem_cons_of_mem B hA)) hTr hTc
        (by
          intro i j hi hj
          dsimp only
          rw [hTat i j hi hj, h3 i j hi hj]
          omega)
      refine ⟨C, hC, hCr, hCc, ?_⟩
      intro i j hi hj
      rw [hCat i j hi hj, List.map_cons, List.sum_cons]
      rw [add_assoc]

/-- C9 (amended): on a nonempty list of matrices of identical shape with 0/1
entries, `matsumreduce` returns the elementwise sum mod 2.  On mismatched
shapes it does not necessarily fail: numpy broadcasting applies, so
broadcast-compatible mismatched shapes still produce a result (see the
counterexample); only incompatible shapes raise. -/
theorem claim_C9 (arr : List NPMat) (r c : ℕ) (harr : arr ≠ [])
    (hshape : ∀ A ∈ arr, A.rows = r ∧ A.cols = c)
    (h01 : ∀ A ∈ arr, ∀ i j, i < r → j < c → A.at i j = 0 ∨ A.at i j = 1) :
    ∃ C, matsumreduce arr = some C ∧ C.rows = r ∧ C.cols = c ∧
      ∀ i j, i < r → j < c →
        C.at i j = ((arr.map (fun A => A.at i j)).sum) % 2 := by
  cases arr with
  | nil => exact absurd rfl harr
  | cons S rest =>
      obtain ⟨C, hC, hCr, hCc, hCat⟩ := matsum_fold rest S (fun i j => S.at i j)
        (fun A hA => hshape A (List.mem_cons_of_mem S hA))
        (hshape S (List.mem_cons_self S rest)).1
        (hshape S (List.mem_cons_self S rest)).2
        (by
          intro i j hi hj
          dsimp only
          rcases h01 S (List.mem_cons_self S rest) i j hi hj with h | h <;> rw [h] <;> rfl)
      refine ⟨C, hC, hCr, hCc, ?_⟩
      intro i j hi hj
      rw [hCat i j hi hj, List.map_cons, List.sum_cons]

/-- C9 counterexample: a 2×2 and a 1×2 matrix do not have identical shape, yet
`matsumreduce` returns a result (numpy broadcasts the single row), so the
claimed failure on every shape mismatch is false. -/
theorem claim_C9_counterexample :
    (matsumreduce [⟨2, 2, fun _ _ => 1⟩, ⟨1, 2, fun _ _ => 1⟩]).isSome = true ∧
      (2 : ℕ) ≠ 1 := by
  exact ⟨rfl, by decide⟩

/-- C9 witness: the amended statement at a concrete pair of 1×1 matrices. -/
theorem claim_C9_witness :
    ∃ C, matsumreduce [⟨1, 1, fun _ _ => 1⟩, ⟨1, 1, fun _ _ => 1⟩] = some C ∧
      C.rows = 1 ∧ C.cols = 1 ∧
      ∀ i j, i < 1 → j < 1 →
        C.at i j = (([(⟨1, 1, fun _ _ => 1⟩ : NPMat), ⟨1, 1, fun _ _ => 1⟩].map
          (fun A => A.at i j)).sum) % 2 := by
  refine claim_C9 _ 1 1 (List.cons_ne_nil _ _) ?_ ?_
  · intro A hA
    rcases List.mem_cons.mp hA with h | h
    · rw [h]
      exact ⟨rfl, rfl⟩
    · rcases List.mem_cons.mp h with h2 | h2
      · rw [h2]
        exact ⟨rfl, rfl⟩
      · cases h2
  · intro A hA i j hi hj
    have hij : i = 0 ∧ j = 0 := by omega
    rcases List.mem_cons.mp hA with h | h
    · rw [h, hij.1, hij.2]
      right
      rfl
    · rcases List.mem_cons.mp h with h2 | h2
      · rw [h2, hij.1, hij.2]
        right
        rfl
      · cases h2

/-! ### `_coset_reps` (source lines 604-633)

The vectors here are 1-D numpy 0/1 arrays, embedded as `List ℕ`.  `np.sum` is
`List.sum`; `matsumreduce([a, b], mod=2)` on two equal-length 1-D arrays is the
elementwise sum reduced mod 2; Python's `sorted` is a stable comparison sort,
as is `List.mergeSort`. -/

def npsum (v : List ℕ) : ℕ := v.sum

/-- `matsumreduce([a, b], mod=2)` for equal-length 1-D arrays `a`, `b`:
`np.mod(a + b, [2])`, the elementwise sum mod 2. -/
def vadd2 (a b : List ℕ) : List ℕ := List.zipWith (fun x y => (x + y) % 2) a b

/-- Hamming weight of a vector: the number of nonzero entries. -/
def hamming (v : List ℕ) : ℕ := v.countP (fun x => decide (x ≠ 0))

/-- Source `_coset_reps(bs, image_group, shortest=True)`: form the list
`[matsumreduce([img, bs]) for img in image_group]`, sort it by `np.sum`,
take `mincoset = np.sum(coset[0])` and return the members of weight
`mincoset`.  `coset[0]` raises `IndexError` on an empty coset: `none`. -/
def _coset_reps (bs : List ℕ) (G : List (List ℕ)) : Option (List (List ℕ)) :=
  match (G.map (fun img => vadd2 img bs)).mergeSort
      (fun a b => decide (npsum a ≤ npsum b)) with
  | [] => none
  | m :: rest => some ((m :: rest).filter (fun g => decide (npsum g = npsum m)))

theorem vadd2_le_one : ∀ (a b : List ℕ), ∀ x ∈ vadd2 a b, x ≤ 1 := by
  intro a
  induction a with
  | nil =>
      intro b x hx
      simp [vadd2] at hx
  | cons h t ih =>
      intro b x hx
      cases b with
      | nil => simp [vadd2] at hx
      | cons bh bt =>
          unfold vadd2 at hx
          rw [List.zipWith_cons_cons] at hx
          rcases List.mem_cons.mp hx with h1 | h1
          · subst h1
            exact Nat.le_of_lt_succ (Nat.mod_lt _ (by omega))
          · exact ih bt x h1

theorem npsum_eq_hamming : ∀ (v : List ℕ), (∀ x ∈ v, x ≤ 1) → npsum v = hamming v := by
  intro v
  induction v with
  | nil => intro _; rfl
  | cons h t ih =>
      intro hv
      have hh : h ≤ 1 := hv h (List.mem_cons_self h t)
      have ht := ih (fun x hx => hv x (List.mem_cons_of_mem h hx))
      unfold npsum hamming
      unfold npsum hamming at ht
      rw [List.sum_cons, List.countP_cons, ← ht]
      rcases Nat.le_one_iff_eq_zero_or_eq_one.mp hh with rfl | rfl
      · rw [if_neg (by decide)]
        omega
      · rw [if_pos (by decide)]
        omega

/-- C7: for a 0/1 vector `bs` and a nonempty list `G` of 0/1 vectors of the
same length, `_coset_reps(bs, G, shortest=True)` returns a nonempty list whose
members are exactly the elements of the coset `{bs + g mod 2 : g ∈ G}` of
minimum Hamming weight over the coset — all ties included, none omitted. -/
theorem claim_C7 (bs : List ℕ) (G : List (List ℕ)) (hG : G ≠ [])
    (hbs : ∀ x ∈ bs, x ≤ 1) (hG01 : ∀ g ∈ G, ∀ x ∈ g, x ≤ 1)
    (hlen : ∀ g ∈ G, g.length = bs.length) :
    ∃ res, _coset_reps bs G = some res ∧ res ≠ [] ∧
      ∀ x, x ∈ res ↔
        (x ∈ G.map (fun img => vadd2 img bs) ∧
          ∀ y ∈ G.map (fun img => vadd2 img bs), hamming x ≤ hamming y) := by
  have hne : G.map (fun img => vadd2 img bs) ≠ [] := by
    cases G with
    | nil => exact absurd rfl hG
    | cons g gs => simp
  have hLperm := List.mergeSort_perm (G.map (fun img => vadd2 img bs))
      (fun a b => decide (npsum a ≤ npsum b))
  have hLsorted := @List.sorted_mergeSort (List ℕ)
      (fun a b => decide (npsum a ≤ npsum b))
      (fun a b c hab hbc => by
        simp only [decide_eq_true_eq] at hab hbc ⊢
        omega)
      (fun a b => by
        simp only [Bool.or_eq_true, decide_eq_true_eq]
        omega)
      (G.map (fun img => vadd2 img bs))
  rcases hLne : (G.map (fun img => vadd2 img bs)).mergeSort
      (fun a b => decide (npsum a ≤ npsum b)) with _ | ⟨m, rest⟩
  · rw [hLne] at hLperm
    exact absurd hLperm.symm.eq_nil hne
  rw [hLne] at hLperm hLsorted
  have hfun : _coset_reps bs G =
      some ((m :: rest).filter (fun g => decide (npsum g = npsum m))) := by
    unfold _coset_reps
    rw [hLne]
  have hmin : ∀ y ∈ m :: rest, npsum m ≤ npsum y := by
    intro y hy
    rcases List.mem_cons.mp hy with rfl | hy'
    · exact le_refl _
    · exact of_decide_eq_true ((List.pairwise_cons.mp hLsorted).1 y hy')
  have hcos01 : ∀ x ∈ G.map (fun img => vadd2 img bs), npsum x = hamming x := by
    intro x hx
    rcases List.mem_map.mp hx with ⟨g, _, rfl⟩
    exact npsum_eq_hamming _ (vadd2_le_one g bs)
  refine ⟨(m :: rest).filter (fun g => decide (npsum g = npsum m)), hfun, ?_, ?_⟩
  · intro hemp
    have hmem : m ∈ (m :: rest).filter (fun g => decide (npsum g = npsum m)) :=
      List.mem_filter.mpr ⟨List.mem_cons_self m rest, decide_eq_true rfl⟩
    rw [hemp] at hmem
    exact absurd hmem (List.not_mem_nil m)
  · intro x
    constructor
    · intro hx
      have hx' := List.mem_filter.mp hx
      have hxc : x ∈ G.map (fun img => vadd2 img bs) := hLperm.mem_iff.mp hx'.1
      have hxm : npsum x = npsum m := of_decide_eq_true hx'.2
      refine ⟨hxc, ?_⟩
      intro y hy
      have h1 : npsum m ≤ npsum y := hmin y (hLperm.mem_iff.mpr hy)
      rw [← hcos01 x hxc, ← hcos01 y hy]
      omega
    · rintro ⟨hxc, hxmin⟩
      refine List.mem_filter.mpr ⟨hLperm.mem_iff.mpr hxc, ?_⟩
      have hmc : m ∈ G.map (fun img => vadd2 img bs) :=
        hLperm.mem_iff.mp (List.mem_cons_self m rest)
      have h1 : hamming x ≤ hamming m := hxmin m hmc
      have h2 : npsum m ≤ npsum x := hmin x (hLperm.mem_iff.mpr hxc)
      rw [← hcos01 x hxc, ← hcos01 m hmc] at h1
      exact decide_eq_true (by omega)

/-- Concrete instance of C7: `bs = [1,0]`, `G = [[0,0],[1,1]]`. -/
theorem claim_C7_witness :
    ∃ res, _coset_reps [1, 0] [[0, 0], [1, 1]] = some res ∧ res ≠ [] ∧
      ∀ x, x ∈ res ↔
        (x ∈ [[0, 0], [1, 1]].map (fun img => vadd2 img [1, 0]) ∧
          ∀ y ∈ [[0, 0], [1, 1]].map (fun img => vadd2 img [1, 0]),
            hamming x ≤ hamming y) :=
  claim_C7 [1, 0] [[0, 0], [1, 1]] (by decide) (by decide) (by decide) (by decide)

/-! ### `_coeff` and `image_group` (source lines 549-602) -/

/-- Source inner helper `addabit(arr)`: for each vector `a` of `arr` append
`a+[0]` and then `a+[1]` to the output. -/
def addabit : List (List ℕ) → List (List ℕ)
  | [] => []
  | a :: rest => (a ++ [0]) :: (a ++ [1]) :: addabit rest

/-- Loop of `_coeff`: start from `[[0],[1]]` and apply `addabit` repeatedly. -/
def coeffIter : ℕ → List (List ℕ)
  | 0 => [[0], [1]]
  | k + 1 => addabit (coeffIter k)

/-- Source `_coeff(n)`: `for idx in range(1,n)` applies `addabit` exactly
`n - 1` times (truncated at 0; the returned iterator is consumed as a list). -/
def _coeff (n : ℕ) : List (List ℕ) := coeffIter (n - 1)

/-- Source `im2.transpose()` for a rectangular nonempty 2-D array: row `j` of
the transpose collects entry `j` of every row of `A`.  (`image_group` only
transposes arrays with a nonzero entry, so `A = []` is never reached there.) -/
def transposeL (A : List (List ℕ)) : List (List ℕ) :=
  (List.range (A.headD []).length).map (fun j => A.map (fun row => row.getD j 0))

/-- Source `matsumreduce(arr, mod=2)` on a list of equal-length 1-D arrays:
`S = arr[0]` (`IndexError` on the empty list: `none`), then repeatedly
`S = np.mod(S + arr[i], [2])`. -/
def vecsumreduce (arr : List (List ℕ)) : Option (List ℕ) :=
  match arr with
  | [] => none
  | v :: rest => some (rest.foldl (fun S a => vadd2 S a) v)

/-- Collects a list of optional vectors, failing if any member fails. -/
def optList : List (Option (List ℕ)) → Option (List (List ℕ))
  | [] => some []
  | none :: _ => none
  | some v :: rest => (optList rest).map (fun l => v :: l)

/-- Source `image_group(im2)`: `None` when `np.sum(im2) == 0`; otherwise with
`image_basis = im2.transpose()`, for every `alpha` in
`_coeff(len(image_basis))` form
`matsumreduce([a*image_basis[idx] for idx,a in enumerate(alpha)])`, and
return the resulting vectors sorted by `np.sum`. -/
def image_group (im2 : List (List ℕ)) : Option (List (List ℕ)) :=
  if (im2.map npsum).sum = 0 then none
  else
    match optList ((_coeff (transposeL im2).length).map
        (fun alpha => vecsumreduce
          (List.zipWith (fun a v => v.map (fun x => a * x)) alpha (transposeL im2)))) with
    | none => none
    | some ig => some (ig.mergeSort (fun a b => decide (npsum a ≤ npsum b)))

/-- Column `j` of the embedded matrix `im2` as a vector over `GF(2)`, used to
state linear independence of the columns. -/
def colZ (im2 : List (List ℕ)) (m r : ℕ) (j : Fin r) : Fin m → ZMod 2 :=
  fun i => (((im2.getD i.val []).getD j.val 0 : ℕ) : ZMod 2)

/-- The vector `image_group` builds for one coefficient vector `alpha`. -/
def comboFn (T : List (List ℕ)) (alpha : List ℕ) : List ℕ :=
  (vecsumreduce (List.zipWith (fun a v => v.map (fun x => a * x)) alpha T)).getD []

theorem addabit_length : ∀ l : List (List ℕ), (addabit l).length = 2 * l.length := by
  intro l
  induction l with
  | nil => rfl
  | cons a rest ih =>
      unfold addabit
      rw [List.length_cons, List.length_cons, ih, List.length_cons]
      omega

theorem addabit_mem : ∀ (l : List (List ℕ)) (x : List ℕ),
    x ∈ addabit l ↔ ∃ b ∈ l, x = b ++ [0] ∨ x = b ++ [1] := by
  intro l
  induction l with
  | nil =>
      intro x
      constructor
      · intro hx
        exact absurd hx (List.not_mem_nil x)
      · rintro ⟨b, hb, _⟩
        exact absurd hb (List.not_mem_nil b)
  | cons a rest ih =>
      intro x
      unfold addabit
      constructor
      · intro hx
        rcases List.mem_cons.mp hx with rfl | hx
        · exact ⟨a, List.mem_cons_self a rest, Or.inl rfl⟩
        rcases List.mem_cons.mp hx with rfl | hx
        · exact ⟨a, List.mem_cons_self a rest, Or.inr rfl⟩
        · rcases (ih x).mp hx with ⟨b, hb, hcase⟩
          exact ⟨b, List.mem_cons_of_mem a hb, hcase⟩
      · rintro ⟨b, hb, hcase⟩
        rcases List.mem_cons.mp hb with rfl | hb
        · rcases hcase with rfl | rfl
          · exact List.mem_cons_self _ _
          · exact List.mem_cons_of_mem _ (List.mem_cons_self _ _)
        · exact List.mem_cons_of_mem _
            (List.mem_cons_of_mem _ ((ih x).mpr ⟨b, hb, hcase⟩))

theorem coeffIter_length : ∀ k, (coeffIter k).length = 2 ^ (k + 1) := by
  intro k
  induction k with
  | zero => rfl
  | succ k ih =>
      unfold coeffIter
      rw [addabit_length, ih, pow_succ 2 (k + 1)]
      omega

theorem coeffIter_mem_length : ∀ k, ∀ a ∈ coeffIter k, a.length = k + 1 := by
  intro k
  induction k with
  | zero =>
      intro a ha
      rcases List.mem_cons.mp ha with rfl | ha
      · rfl
      rcases List.mem_cons.mp ha with rfl | ha
      · rfl
      · exact absurd ha (List.not_mem_nil a)
  | succ k ih =>
      intro a ha
      rcases (addabit_mem _ a).mp ha with ⟨b, hb, hcase⟩
      have hbl := ih b hb
      rcases hcase with rfl | rfl
      · rw [List.length_append, hbl]
        rfl
      · rw [List.length_append, hbl]
        rfl

theorem coeffIter_mem_le_one : ∀ k, ∀ a ∈ coeffIter k, ∀ x ∈ a, x ≤ 1 := by
  intro k
  induction k with
  | zero =>
      intro a ha x hx
      rcases List.mem_cons.mp ha with rfl | ha
      · rcases List.mem_cons.mp hx with rfl | hx
        · omega
        · exact absurd hx (List.not_mem_nil x)
      rcases List.mem_cons.mp ha with rfl | ha
      · rcases List.mem_cons.mp hx with rfl | hx
        · omega
        · exact absurd hx (List.not_mem_nil x)
      · exact absurd ha (List.not_mem_nil a)
  | succ k ih =>
      intro a ha x hx
      rcases (addabit_mem _ a).mp ha with ⟨b, hb, hcase⟩
      rcases hcase with rfl | rfl
      · rcases List.mem_append.mp hx with h1 | h1
        · exact ih b hb x h1
        · rcases List.mem_cons.mp h1 with rfl | h1
          · omega
          · exact absurd h1 (List.not_mem_nil x)
      · rcases List.mem_append.mp hx with h1 | h1
        · exact ih b hb x h1
        · rcases List.mem_cons.mp h1 with rfl | h1
          · omega
          · exact absurd h1 (List.not_mem_nil x)

theorem addabit_nodup : ∀ (l : List (List ℕ)) (c : ℕ),
    (∀ a ∈ l, a.length = c) → l.Nodup → (addabit l).Nodup := by
  intro l
  induction l with
  | nil =>
      intro c _ _
      exact List.nodup_nil
  | cons a rest ih =>
      intro c hlen hnd
      have hnd' := List.nodup_cons.mp hnd
      unfold addabit
      rw [List.nodup_cons, List.nodup_cons]
      refine ⟨?_, ?_, ih c (fun b hb => hlen b (List.mem_cons_of_mem a hb)) hnd'.2⟩
      · intro hmem
        rcases List.mem_cons.mp hmem with heq | hmem
        · have h01 := List.append_cancel_left heq
          simp at h01
        · rcases (addabit_mem rest _).mp hmem with ⟨b, hb, hcase⟩
          have hblen : b.length = c := hlen b (List.mem_cons_of_mem a hb)
          have halen : a.length = c := hlen a (List.mem_cons_self a rest)
          rcases hcase with heq | heq
          · have hab := (List.append_inj heq (by omega)).1
            exact hnd'.1 (by rw [hab]; exact hb)
          · have hab := (List.append_inj heq (by omega)).1
            exact hnd'.1 (by rw [hab]; exact hb)
      · intro hmem
        rcases (addabit_mem rest _).mp hmem with ⟨b, hb, hcase⟩
        have hblen : b.length = c := hlen b (List.mem_cons_of_mem a hb)
        have halen : a.length = c := hlen a (List.mem_cons_self a rest)
        rcases hcase with heq | heq
        · have hab := (List.append_inj heq (by omega)).1
          exact hnd'.1 (by rw [hab]; exact hb)
        · have hab := (List.append_inj heq (by omega)).1
          exact hnd'.1 (by rw [hab]; exact hb)

theorem coeffIter_nodup : ∀ k, (coeffIter k).Nodup := by
  intro k
  induction k with
  | zero => decide
  | succ k ih => exact addabit_nodup (coeffIter k) (k + 1) (coeffIter_mem_length k) ih

theorem coeffIter_zero_mem : ∀ k, List.replicate (k + 1) 0 ∈ coeffIter k := by
  intro k
  induction k with
  | zero =>
      show [0] ∈ [[0], [1]]
      exact List.mem_cons_self _ _
  | succ k ih =>
      unfold coeffIter
      rw [List.replicate_succ']
      exact (addabit_mem _ _).mpr ⟨_, ih, Or.inl rfl⟩

theorem vadd2_length (a b : List ℕ) : (vadd2 a b).length = min a.length b.length :=
  List.length_zipWith _ _ _

theorem vadd2_getD (a b : List ℕ) (i : ℕ) (ha : i < a.length) (hb : i < b.length) :
    (vadd2 a b).getD i 0 = (a.getD i 0 + b.getD i 0) % 2 := by
  have hl : i < (vadd2 a b).length := by
    rw [vadd2_length]
    omega
  rw [List.getD_eq_getElem _ _ hl, List.getD_eq_getElem _ _ ha, List.getD_eq_getElem _ _ hb]
  simp only [vadd2]
  rw [List.getElem_zipWith]

theorem vfold_spec (m : ℕ) : ∀ (arr : List (List ℕ)) (S : List ℕ),
    S.length = m → (∀ x ∈ S, x ≤ 1) → (∀ w ∈ arr, w.length = m) →
    (arr.foldl (fun S a => vadd2 S a) S).length = m ∧
      (∀ x ∈ arr.foldl (fun S a => vadd2 S a) S, x ≤ 1) ∧
      ∀ i, i < m → (arr.foldl (fun S a => vadd2 S a) S).getD i 0
        = (S.getD i 0 + (arr.map (fun w => w.getD i 0)).sum) % 2 := by
  intro arr
  induction arr with
  | nil =>
      intro S hS h01 _
      refine ⟨hS, h01, ?_⟩
      intro i hi
      rw [List.foldl_nil, List.map_nil, List.sum_nil]
      have hx : S.getD i 0 ≤ 1 := by
        have hi' : i < S.length := by omega
        rw [List.getD_eq_getElem _ _ hi']
        exact h01 _ (List.getElem_mem _)
      omega
  | cons w arr ih =>
      intro S hS h01 hlen
      have hw : w.length = m := hlen w (List.mem_cons_self w arr)
      have h1 : (vadd2 S w).length = m := by
        rw [vadd2_length]
        omega
      have h2 : ∀ x ∈ vadd2 S w, x ≤ 1 := vadd2_le_one S w
      have h3 : ∀ u ∈ arr, u.length = m := fun u hu => hlen u (List.mem_cons_of_mem w hu)
      obtain ⟨ha, hb, hc⟩ := ih (vadd2 S w) h1 h2 h3
      rw [List.foldl_cons]
      refine ⟨ha, hb, ?_⟩
      intro i hi
      rw [hc i hi, vadd2_getD S w i (by omega) (by omega), List.map_cons, List.sum_cons]
      omega

theorem vecsumreduce_spec (m : ℕ) (arr : List (List ℕ)) (hne : arr ≠ [])
    (hlen : ∀ w ∈ arr, w.length = m) (h01 : ∀ w ∈ arr, ∀ x ∈ w, x ≤ 1) :
    ∃ v, vecsumreduce arr = some v ∧ v.length = m ∧ (∀ x ∈ v, x ≤ 1) ∧
      ∀ i, i < m → v.getD i 0 = ((arr.map (fun w => w.getD i 0)).sum) % 2 := by
  cases arr with
  | nil => exact absurd rfl hne
  | cons w rest =>
      have hw := hlen w (List.mem_cons_self w rest)
      have hw01 := h01 w (List.mem_cons_self w rest)
      obtain ⟨ha, hb, hc⟩ := vfold_spec m rest w hw hw01
        (fun u hu => hlen u (List.mem_cons_of_mem w hu))
      refine ⟨_, rfl, ha, hb, ?_⟩
      intro i hi
      rw [hc i hi, List.map_cons, List.sum_cons]

theorem transposeL_length (A : List (List ℕ)) (r : ℕ) (hne : A ≠ [])
    (hcols : ∀ row ∈ A, row.length = r) : (transposeL A).length = r := by
  unfold transposeL
  rw [List.length_map, List.length_range]
  cases A with
  | nil => exact absurd rfl hne
  | cons a rest => exact hcols a (List.mem_cons_self a rest)

theorem transposeL_row (A : List (List ℕ)) (j : ℕ) (hj : j < (transposeL A).length) :
    (transposeL A).getD j [] = A.map (fun row => row.getD j 0) := by
  unfold transposeL at hj ⊢
  rw [List.getD_eq_getElem _ _ hj, List.getElem_map, List.getElem_range]

theorem transposeL_getD (A : List (List ℕ)) (r : ℕ) (hne : A ≠ [])
    (hcols : ∀ row ∈ A, row.length = r) (j i : ℕ) (hj : j < r) (hi : i < A.length) :
    ((transposeL A).getD j []).getD i 0 = (A.getD i []).getD j 0 := by
  have hj' : j < (transposeL A).length := by
    rw [transposeL_length A r hne hcols]
    omega
  rw [transposeL_row A j hj']
  have hi' : i < (A.map (fun row => row.getD j 0)).length := by
    rw [List.length_map]
    omega
  rw [List.getD_eq_getElem _ _ hi', List.getElem_map, List.getD_eq_getElem _ _ hi]

theorem transposeL_mem (A : List (List ℕ)) (v : List ℕ) (hv : v ∈ transposeL A) :
    v.length = A.length ∧ ∀ x ∈ v, ∃ row ∈ A, ∃ j, x = row.getD j 0 := by
  unfold transposeL at hv
  rcases List.mem_map.mp hv with ⟨j, _, rfl⟩
  constructor
  · exact List.length_map _ _
  · intro x hx
    rcases List.mem_map.mp hx with ⟨row, hrow, rfl⟩
    exact ⟨row, hrow, j, rfl⟩

theorem getD_le_one (row : List ℕ) (j : ℕ) (h01 : ∀ x ∈ row, x ≤ 1) :
    row.getD j 0 ≤ 1 := by
  by_cases hj : j < row.length
  · rw [List.getD_eq_getElem _ _ hj]
    exact h01 _ (List.getElem_mem _)
  · rw [List.getD_eq_default _ _ (by omega)]
    omega

theorem optList_map_some : ∀ (l : List (List ℕ)) (f : List ℕ → Option (List ℕ))
    (g : List ℕ → List ℕ), (∀ x ∈ l, f x = some (g x)) →
    optList (l.map f) = some (l.map g) := by
  intro l
  induction l with
  | nil =>
      intro f g _
      rfl
  | cons a rest ih =>
      intro f g hfg
      rw [List.map_cons, List.map_cons]
      rw [hfg a (List.mem_cons_self a rest)]
      show (optList (rest.map f)).map (fun l => g a :: l) = some (g a :: rest.map g)
      rw [ih f g (fun x hx => hfg x (List.mem_cons_of_mem a hx))]
      rfl

theorem replicate_zero_getD (r j : ℕ) : (List.replicate r (0 : ℕ)).getD j 0 = 0 := by
  by_cases hj : j < r
  · have hj' : j < (List.replicate r (0 : ℕ)).length := by
      rw [List.length_replicate]
      omega
    rw [List.getD_eq_getElem _ _ hj', List.getElem_replicate]
  · rw [List.getD_eq_default _ _ (by rw [List.length_replicate]; omega)]

theorem natCast_zmod2_inj (a b : ℕ) (ha : a ≤ 1) (hb : b ≤ 1)
    (h : (a : ZMod 2) = b) : a = b := by
  rcases Nat.le_one_iff_eq_zero_or_eq_one.mp ha with rfl | rfl <;>
    rcases Nat.le_one_iff_eq_zero_or_eq_one.mp hb with rfl | rfl <;>
    first
      | rfl
      | (exfalso; revert h; decide)

theorem list_range_sum_eq (f : ℕ → ZMod 2) (n : ℕ) :
    ((List.range n).map f).sum = ∑ j ∈ Finset.range n, f j := rfl

theorem zip_scalar_getD (alpha : List ℕ) (T : List (List ℕ)) (k : ℕ)
    (hk1 : k < alpha.length) (hk2 : k < T.length) :
    (List.zipWith (fun a v => v.map (fun x => a * x)) alpha T).getD k []
      = (T.getD k []).map (fun x => alpha.getD k 0 * x) := by
  have hk : k < (List.zipWith (fun a v => v.map (fun x => a * x)) alpha T).length := by
    rw [List.length_zipWith]
    omega
  rw [List.getD_eq_getElem _ _ hk, List.getElem_zipWith,
    List.getD_eq_getElem _ _ hk1, List.getD_eq_getElem _ _ hk2]

theorem zip_scalar_mem (alpha : List ℕ) (T : List (List ℕ)) (w : List ℕ)
    (hw : w ∈ List.zipWith (fun a v => v.map (fun x => a * x)) alpha T) :
    ∃ k, k < alpha.length ∧ k < T.length ∧
      w = (T.getD k []).map (fun x => alpha.getD k 0 * x) := by
  rcases List.mem_iff_getElem.mp hw with ⟨k, hk, hw'⟩
  have h1 : k < alpha.length := by
    rw [List.length_zipWith] at hk
    omega
  have h2 : k < T.length := by
    rw [List.length_zipWith] at hk
    omega
  refine ⟨k, h1, h2, ?_⟩
  rw [← hw', List.getElem_zipWith, List.getD_eq_getElem _ _ h1, List.getD_eq_getElem _ _ h2]

theorem comboFn_spec (A : List (List ℕ)) (m r : ℕ) (hne : A ≠ [])
    (hm : A.length = m) (hcols : ∀ row ∈ A, row.length = r)
    (h01 : ∀ row ∈ A, ∀ x ∈ row, x ≤ 1) (hr : 1 ≤ r)
    (alpha : List ℕ) (hal : alpha.length = r) (ha01 : ∀ x ∈ alpha, x ≤ 1) :
    vecsumreduce (List.zipWith (fun a v => v.map (fun x => a * x)) alpha (transposeL A))
      = some (comboFn (transposeL A) alpha) ∧
    (comboFn (transposeL A) alpha).length = m ∧
    (∀ x ∈ comboFn (transposeL A) alpha, x ≤ 1) ∧
    (∀ i, i < m → (comboFn (transposeL A) alpha).getD i 0
      = ((List.range r).map
          (fun j => alpha.getD j 0 * (A.getD i []).getD j 0)).sum % 2) := by
  have hT : (transposeL A).length = r := transposeL_length A r hne hcols
  have hlen1 : (List.zipWith (fun a v => v.map (fun x => a * x)) alpha
      (transposeL A)).length = r := by
    rw [List.length_zipWith, hal, hT]
    omega
  have hne1 : List.zipWith (fun a v => v.map (fun x => a * x)) alpha (transposeL A) ≠ [] :=
    List.length_pos.mp (by rw [hlen1]; omega)
  have hmemlen : ∀ w ∈ List.zipWith (fun a v => v.map (fun x => a * x)) alpha (transposeL A),
      w.length = m := by
    intro w hw
    rcases zip_scalar_mem alpha (transposeL A) w hw with ⟨k, hk1, hk2, rfl⟩
    rw [List.length_map, List.getD_eq_getElem _ _ hk2,
      (transposeL_mem A _ (List.getElem_mem _)).1, hm]
  have hmem01 : ∀ w ∈ List.zipWith (fun a v => v.map (fun x => a * x)) alpha (transposeL A),
      ∀ x ∈ w, x ≤ 1 := by
    intro w hw x hx
    rcases zip_scalar_mem alpha (transposeL A) w hw with ⟨k, hk1, hk2, rfl⟩
    rcases List.mem_map.mp hx with ⟨y, hy, rfl⟩
    have hya : alpha.getD k 0 ≤ 1 := getD_le_one alpha k ha01
    have hyy : y ≤ 1 := by
      rw [List.getD_eq_getElem _ _ hk2] at hy
      rcases (transposeL_mem A _ (List.getElem_mem _)).2 y hy with ⟨row, hrow, j, rfl⟩
      exact getD_le_one row j (h01 row hrow)
    simpa using Nat.mul_le_mul hya hyy
  obtain ⟨v, hv, hvlen, hv01, hvget⟩ := vecsumreduce_spec m
    (List.zipWith (fun a v => v.map (fun x => a * x)) alpha (transposeL A))
    hne1 hmemlen hmem01
  have hcombo : comboFn (transposeL A) alpha = v := by
    unfold comboFn
    rw [hv]
    rfl
  refine ⟨by rw [hcombo]; exact hv, by rw [hcombo]; exact hvlen,
    by rw [hcombo]; exact hv01, ?_⟩
  intro i hi
  rw [hcombo, hvget i hi]
  have hlists : ((List.zipWith (fun a v => v.map (fun x => a * x)) alpha
        (transposeL A)).map (fun w => w.getD i 0))
      = (List.range r).map (fun j => alpha.getD j 0 * (A.getD i []).getD j 0) := by
    apply List.ext_getElem
    · rw [List.length_map, hlen1, List.length_map, List.length_range]
    · intro k h1 h2
      have hk : k < r := by
        rw [List.length_map, hlen1] at h1
        exact h1
      rw [List.getElem_map, List.getElem_map, List.getElem_range]
      have hkz : k < (List.zipWith (fun a v => v.map (fun x => a * x)) alpha
          (transposeL A)).length := by
        rw [hlen1]
        omega
      rw [← List.getD_eq_getElem _ _ hkz]
      rw [zip_scalar_getD alpha (transposeL A) k (by omega) (by omega)]
      have hTk : ((transposeL A).getD k []).length = m := by
        rw [List.getD_eq_getElem _ _ (show k < (transposeL A).length by omega),
          (transposeL_mem A _ (List.getElem_mem _)).1, hm]
      have hi2 : i < (((transposeL A).getD k []).map
          (fun x => alpha.getD k 0 * x)).length := by
        rw [List.length_map, hTk]
        omega
      rw [List.getD_eq_getElem _ _ hi2, List.getElem_map]
      congr 1
      rw [← List.getD_eq_getElem _ _ (show i < ((transposeL A).getD k []).length by omega)]
      exact transposeL_getD A r hne hcols k i hk (by omega)
  rw [hlists]

theorem cast_sum_mod2 : ∀ l : List ℕ,
    ((l.sum : ℕ) : ZMod 2) = (l.map (fun x => ((x : ℕ) : ZMod 2))).sum := by
  intro l
  induction l with
  | nil => simp
  | cons a t ih => rw [List.sum_cons, List.map_cons, List.sum_cons, Nat.cast_add, ih]

theorem comboFn_cast (A : List (List ℕ)) (m r : ℕ) (hne : A ≠ [])
    (hm : A.length = m) (hcols : ∀ row ∈ A, row.length = r)
    (h01 : ∀ row ∈ A, ∀ x ∈ row, x ≤ 1) (hr : 1 ≤ r)
    (alpha : List ℕ) (hal : alpha.length = r) (ha01 : ∀ x ∈ alpha, x ≤ 1)
    (i : Fin m) :
    (((comboFn (transposeL A) alpha).getD i.val 0 : ℕ) : ZMod 2)
      = ∑ j : Fin r, ((alpha.getD j.val 0 : ℕ) : ZMod 2) * colZ A m r j i := by
  obtain ⟨-, -, -, hget⟩ := comboFn_spec A m r hne hm hcols h01 hr alpha hal ha01
  rw [hget i.val i.isLt, ZMod.natCast_mod, cast_sum_mod2, List.map_map]
  have hmapeq : ((List.range r).map ((fun x => ((x : ℕ) : ZMod 2))
        ∘ (fun j => alpha.getD j 0 * (A.getD i.val []).getD j 0)))
      = (List.range r).map (fun j => ((alpha.getD j 0 : ℕ) : ZMod 2)
          * (((A.getD i.val []).getD j 0 : ℕ) : ZMod 2)) :=
    List.map_congr_left (fun a _ => Nat.cast_mul _ _)
  rw [hmapeq, list_range_sum_eq, ← Fin.sum_univ_eq_sum_range]
  exact Finset.sum_congr rfl (fun j _ => rfl)

theorem comboFn_inj (A : List (List ℕ)) (m r : ℕ) (hne : A ≠ [])
    (hm : A.length = m) (hcols : ∀ row ∈ A, row.length = r)
    (h01 : ∀ row ∈ A, ∀ x ∈ row, x ≤ 1) (hr : 1 ≤ r)
    (hindep : LinearIndependent (ZMod 2) (colZ A m r))
    (alpha beta : List ℕ) (hal : alpha.length = r) (ha01 : ∀ x ∈ alpha, x ≤ 1)
    (hbl : beta.length = r) (hb01 : ∀ x ∈ beta, x ≤ 1)
    (heq : comboFn (transposeL A) alpha = comboFn (transposeL A) beta) :
    alpha = beta := by
  have hsum : ∀ i : Fin m,
      ∑ j : Fin r, ((alpha.getD j.val 0 : ℕ) : ZMod 2) * colZ A m r j i
        = ∑ j : Fin r, ((beta.getD j.val 0 : ℕ) : ZMod 2) * colZ A m r j i := by
    intro i
    rw [← comboFn_cast A m r hne hm hcols h01 hr alpha hal ha01 i,
      ← comboFn_cast A m r hne hm hcols h01 hr beta hbl hb01 i, heq]
  have hzero : ∑ j : Fin r,
      (((alpha.getD j.val 0 : ℕ) : ZMod 2) - ((beta.getD j.val 0 : ℕ) : ZMod 2))
        • colZ A m r j = 0 := by
    funext i
    rw [Finset.sum_apply]
    rw [Finset.sum_congr rfl (fun j _ => show
        ((((alpha.getD j.val 0 : ℕ) : ZMod 2) - ((beta.getD j.val 0 : ℕ) : ZMod 2))
            • colZ A m r j) i
          = ((alpha.getD j.val 0 : ℕ) : ZMod 2) * colZ A m r j i
            - ((beta.getD j.val 0 : ℕ) : ZMod 2) * colZ A m r j i from by
        rw [Pi.smul_apply, smul_eq_mul, sub_mul])]
    rw [Finset.sum_sub_distrib, hsum i, sub_self]
    rfl
  have hg := Fintype.linearIndependent_iff.mp hindep
    (fun j => ((alpha.getD j.val 0 : ℕ) : ZMod 2) - ((beta.getD j.val 0 : ℕ) : ZMod 2))
    hzero
  apply List.ext_getElem (by omega)
  intro k h1 h2
  have hk : k < r := by omega
  have hc := sub_eq_zero.mp (hg ⟨k, hk⟩)
  have hcc := natCast_zmod2_inj (alpha.getD k 0) (beta.getD k 0)
    (getD_le_one alpha k ha01) (getD_le_one beta k hb01) hc
  rw [← List.getD_eq_getElem _ _ h1, ← List.getD_eq_getElem _ _ h2]
  exact hcc

/-- C8 (amended): for a 0/1 matrix `im2` whose `r` columns are linearly
independent over `GF(2)` with `r ≥ 1`, `image_group(im2)` returns exactly
`2^r` distinct vectors including the zero vector.  For `r = 0` the claim
fails: `np.sum(im2) == 0` and the function returns `None` instead of the
one-element group `{0}` (see the counterexample). -/
theorem claim_C8 (im2 : List (List ℕ)) (m r : ℕ) (hr : 1 ≤ r)
    (hm : im2.length = m) (hcols : ∀ row ∈ im2, row.length = r)
    (h01 : ∀ row ∈ im2, ∀ x ∈ row, x ≤ 1)
    (hindep : LinearIndependent (ZMod 2) (colZ im2 m r)) :
    ∃ l, image_group im2 = some l ∧ l.length = 2 ^ r ∧ l.Nodup ∧
      List.replicate m 0 ∈ l := by
  have hsum_ne : ¬ (im2.map npsum).sum = 0 := by
    intro h0
    have hz : ∀ s ∈ im2.map npsum, s = 0 := List.sum_eq_zero_iff.mp h0
    have hcol0 : colZ im2 m r ⟨0, hr⟩ = 0 := by
      funext i
      show (((im2.getD i.val []).getD 0 0 : ℕ) : ZMod 2) = 0
      have hi : i.val < im2.length := by
        rw [hm]
        exact i.isLt
      have hrow : im2.getD i.val [] ∈ im2 := by
        rw [List.getD_eq_getElem _ _ hi]
        exact List.getElem_mem _
      have hrl : (im2.getD i.val []).length = r := hcols _ hrow
      have hzr : npsum (im2.getD i.val []) = 0 := hz _ (List.mem_map_of_mem _ hrow)
      have hent : (im2.getD i.val []).getD 0 0 = 0 := by
        have h0r : (0 : ℕ) < (im2.getD i.val []).length := by omega
        rw [List.getD_eq_getElem _ _ h0r]
        exact List.sum_eq_zero_iff.mp hzr _ (List.getElem_mem _)
      rw [hent]
      exact Nat.cast_zero
    exact (hindep.ne_zero ⟨0, hr⟩) hcol0
  have hA_ne : im2 ≠ [] := by
    intro h
    apply hsum_ne
    rw [h]
    rfl
  have hT : (transposeL im2).length = r := transposeL_length im2 r hA_ne hcols
  have hCfacts : ∀ alpha ∈ _coeff r, alpha.length = r ∧ ∀ x ∈ alpha, x ≤ 1 := by
    intro alpha ha
    have h1 := coeffIter_mem_length (r - 1) alpha ha
    have h2 := coeffIter_mem_le_one (r - 1) alpha ha
    exact ⟨by omega, h2⟩
  have hf : ∀ alpha ∈ _coeff r,
      (fun alpha => vecsumreduce
        (List.zipWith (fun a v => v.map (fun x => a * x)) alpha (transposeL im2))) alpha
        = some (comboFn (transposeL im2) alpha) := by
    intro alpha ha
    exact (comboFn_spec im2 m r hA_ne hm hcols h01 hr alpha
      (hCfacts alpha ha).1 (hCfacts alpha ha).2).1
  have himg : image_group im2 = some (((_coeff r).map
      (comboFn (transposeL im2))).mergeSort (fun a b => decide (npsum a ≤ npsum b))) := by
    unfold image_group
    rw [if_neg hsum_ne, hT]
    rw [optList_map_some (_coeff r)
      (fun alpha => vecsumreduce
        (List.zipWith (fun a v => v.map (fun x => a * x)) alpha (transposeL im2)))
      (comboFn (transposeL im2)) hf]
  have hperm := List.mergeSort_perm ((_coeff r).map (comboFn (transposeL im2)))
      (fun a b => decide (npsum a ≤ npsum b))
  refine ⟨_, himg, ?_, ?_, ?_⟩
  · rw [hperm.length_eq, List.length_map]
    show (coeffIter (r - 1)).length = 2 ^ r
    rw [coeffIter_length, show r - 1 + 1 = r from by omega]
  · apply hperm.symm.nodup
    apply List.Nodup.map_on ?_ (coeffIter_nodup (r - 1))
    intro x hx y hy hxy
    exact comboFn_inj im2 m r hA_ne hm hcols h01 hr hindep x y
      (hCfacts x hx).1 (hCfacts x hx).2 (hCfacts y hy).1 (hCfacts y hy).2 hxy
  · rw [List.mem_mergeSort]
    apply List.mem_map.mpr
    refine ⟨List.replicate r 0, ?_, ?_⟩
    · have hmem := coeffIter_zero_mem (r - 1)
      rw [show r - 1 + 1 = r from by omega] at hmem
      exact hmem
    · obtain ⟨-, hlen0, -, hget0⟩ := comboFn_spec im2 m r hA_ne hm hcols h01 hr
        (List.replicate r 0) (by simp) (by
          intro x hx
          have := List.eq_of_mem_replicate hx
          omega)
      apply List.ext_getElem (by rw [hlen0, List.length_replicate])
      intro k hk1 hk2
      have hkm : k < m := by omega
      rw [← List.getD_eq_getElem _ _ hk1, hget0 k hkm, List.getElem_replicate]
      have hs0 : ((List.range r).map
          (fun j => (List.replicate r 0).getD j 0 * (im2.getD k []).getD j 0)).sum = 0 := by
        apply List.sum_eq_zero
        intro x hx
        rcases List.mem_map.mp hx with ⟨j, _, rfl⟩
        rw [replicate_zero_getD]
        exact Nat.zero_mul _
      rw [hs0]

/-- Concrete instance of C8: the 2×2 identity matrix, whose two columns are
independent over `GF(2)`. -/
theorem claim_C8_witness :
    ∃ l, image_group [[1, 0], [0, 1]] = some l ∧ l.length = 2 ^ 2 ∧ l.Nodup ∧
      List.replicate 2 0 ∈ l :=
  claim_C8 [[1, 0], [0, 1]] 2 2 (by decide) (by decide) (by decide) (by decide)
    ((Fintype.linearIndependent_iff).mpr (by decide))

/-- The claim fails at `r = 0`: the 2×0 matrix has (vacuously) linearly
independent columns, yet `image_group` returns `None` — not a list of
`2^0 = 1` vectors containing the zero vector. -/
theorem claim_C8_counterexample :
    image_group [[], []] = none ∧ LinearIndependent (ZMod 2) (colZ [[], []] 2 0) :=
  ⟨rfl, linearIndependent_empty_type⟩

/-! ### `kchainbasis`, `bkMatrix`, `interpret`, `homology_basis`,
`hypergraph_homology_basis` (source lines 37-740)

A hypergraph is embedded as the list of its edges, each edge the
duplicate-free list of its node uids (so `len(e)` is the list length).
Python's `sorted` on numbers and on tuples (lexicographic) are the two
comparison sorts below; a Python `set` built by accumulation and then
sorted is modelled as `dedup` followed by the sort. -/

def sortNat (l : List ℕ) : List ℕ := l.mergeSort (fun a b => decide (a ≤ b))

def lexLe : List ℕ → List ℕ → Bool
  | [], _ => true
  | _ :: _, [] => false
  | a :: as, b :: bs => if a < b then true else if b < a then false else lexLe as bs

/-- Source `kchainbasis(h, k)`: every edge of size `k+1` contributes its
sorted uid tuple, every larger edge contributes all its `(k+1)`-element
combinations (`it.combinations` on the sorted uids =
`sublistsLen (k+1)` of the sorted list, as a set); the accumulated set is
returned sorted. -/
def kchainbasis (h : List (List ℕ)) (k : ℕ) : List (List ℕ) :=
  ((h.foldl (fun acc e =>
      if e.length = k + 1 then acc ++ [sortNat e]
      else if k + 1 < e.length then acc ++ (sortNat e).sublistsLen (k + 1)
      else acc) []).dedup).mergeSort lexLe

/-- Source `bkMatrix(km1basis, kbasis)`: `bk[row, col] = 1` exactly when some
face `cell[:idx]+cell[idx+1:]` of `cell = kbasis[col]` equals
`km1basis[row]`.  (The source writes `bk[km1basis.index(face), col] = 1`;
the basis lists are duplicate-free sorted lists, so position `row` holds the
face iff the entry is set, and in the pipeline every face occurs in
`km1basis`, so `.index` never raises.) -/
def bkMatrix (km1basis kbasis : List (List ℕ)) :
    Mat km1basis.length kbasis.length :=
  fun row col =>
    if (List.range (kbasis.getD col.val []).length).any
        (fun idx => decide ((kbasis.getD col.val []).eraseIdx idx = km1basis.getD row.val []))
    then 1 else 0

/-- Source `interpret(Ck, arr)`: raises (`none`) when some vector's length
differs from `len(Ck)`; otherwise maps each 0/1 vector to the list of cells
of `Ck` at the positions holding a 1. -/
def interpret (Ck : List (List ℕ)) (arr : List (List ℕ)) :
    Option (List (List (List ℕ))) :=
  if arr.all (fun vec => decide (Ck.length = vec.length)) then
    some (arr.map (fun vec =>
      ((List.range vec.length).filter (fun idx => decide (vec.getD idx 0 = 1))).map
        (fun idx => Ck.getD idx [])))
  else none

/-- `M[:, s:]` — numpy column slice from `s` on. -/
def colsFrom {a b : ℕ} (M : Mat a b) (s : ℕ) : Mat a (b - s) :=
  fun i j => M i ⟨s + j.val, by omega⟩

/-- `M[:, :s]` — numpy column slice up to `s` (clamped at `b`). -/
def colsUntil {a b : ℕ} (M : Mat a b) (s : ℕ) : Mat a (min s b) :=
  fun i j => M i ⟨j.val, by omega⟩

/-- `M[s:, :]` — numpy row slice from `s` on. -/
def rowsFrom {a b : ℕ} (M : Mat a b) (s : ℕ) : Mat (a - s) b :=
  fun i j => M ⟨s + i.val, by omega⟩ j

/-- `np.sum` of a 0/1 matrix over `GF(2)` entries: the number of ones. -/
def matSum {a b : ℕ} (M : Mat a b) : ℕ := ∑ i, ∑ j, (M i j).val

/-- A matrix as numpy would iterate it: the list of its rows as 0/1 lists. -/
def matToList {a b : ℕ} (M : Mat a b) : List (List ℕ) :=
  List.ofFn (fun i => List.ofFn (fun j => (M i j).val))

/-- Sequences a list of optional values, failing if any member fails. -/
def seqOpt {α : Type} : List (Option α) → Option (List α)
  | [] => some []
  | none :: _ => none
  | some a :: rest => (seqOpt rest).map (fun l => a :: l)

/-- The possible results of `homology_basis`: a list of 0/1 generator rows,
the same rows interpreted as k-chains, or (with `shortest`) the coset
dictionary in either form (keys `0..` are consecutive: a list). -/
inductive HBOut where
  | vectors : List (List ℕ) → HBOut
  | chains : List (List (List ℕ)) → HBOut
  | cosetVectors : List (List (List ℕ)) → HBOut
  | cosetChains : List (List (List (List ℕ))) → HBOut
  deriving DecidableEq

/-- Source `homology_basis(bd, k, C, shortest)` (lines 635-701) on the two
boundary matrices `bd1 = bd[k] : m1 × n1` and `bd2 = bd[k+1] : n1 × p`:
take the two Smith normal forms, slice `ker1 = R1[:, rank1:]`,
`im2 = L2inv[:, :rank2]`, `cokernel2 = L2inv[:, rank2:]`,
`cokproj2 = L2[rank2:, :]`, put
`proj = matmulreduce([cokernel2, cokproj2, ker1]).transpose()` (modular
products over `GF(2)`) through `reduced_row_echelon_form_mod2`, keep the
nonzero rows, and return them — interpreted through `C` when `C` is truthy
(a nonempty list), and as shortest coset representatives when `shortest`
and `image_group(im2)` is truthy.  Python exceptions raised by the helpers
are modelled as `none`. -/
def homology_basis {m1 n1 p : ℕ} (bd1 : Mat m1 n1) (bd2 : Mat n1 p)
    (C : Option (List (List ℕ))) (shortest : Bool) : Option HBOut :=
  let st1 := smith_normal_form_mod2 bd1
  let st2 := smith_normal_form_mod2 bd2
  let rank1 := matSum st1.S
  let rank2 := matSum st2.S
  let ker1 := colsFrom st1.R rank1
  let im2 := colsUntil st2.Linv rank2
  let cokernel2 := colsFrom st2.Linv rank2
  let cokproj2 := rowsFrom st2.L rank2
  let proj0 := (cokernel2 * cokproj2 * ker1).transpose
  let st3 := reduced_row_echelon_form_mod2 proj0
  let projRows := (matToList st3.S).filter (fun row => decide (0 < row.sum))
  if shortest then
    match image_group (matToList im2) with
    | some (g :: gs) =>
        match C with
        | some (c :: cs) =>
            (seqOpt (projRows.map (fun bs => (_coset_reps bs (g :: gs)).bind
              (fun reps => interpret (c :: cs) reps)))).map HBOut.cosetChains
        | _ =>
            (seqOpt (projRows.map (fun bs => _coset_reps bs (g :: gs)))).map
              HBOut.cosetVectors
    | _ =>
        match C with
        | some (c :: cs) => (interpret (c :: cs) projRows).map HBOut.chains
        | _ => some (HBOut.vectors projRows)
  else
    match C with
    | some (c :: cs) => (interpret (c :: cs) projRows).map HBOut.chains
    | _ => some (HBOut.vectors projRows)

/-- Source `hypergraph_homology_basis(h, k, shortest)` (lines 703-735):
`max_edge_size = np.max([len(e) for e in h.edges()])` (`np.max` raises on a
hypergraph without edges: `none`); when `k+1 > max_edge_size or k < 1` the
function returns the string `'wrong dim'`; otherwise it builds
`C[k-1], C[k], C[k+1]` with `kchainbasis`, the boundary matrices with
`bkMatrix`, and delegates to `homology_basis` with `C = C[k]`. -/
def hypergraph_homology_basis (h : List (List ℕ)) (k : ℕ) (shortest : Bool) :
    Option (Sum String HBOut) :=
  match (h.map (fun e => e.length)).max? with
  | none => none
  | some max_edge_size =>
    if k + 1 > max_edge_size ∨ k < 1 then some (Sum.inl ("wrong dim"))
    else
      let Ckm1 := kchainbasis h (k - 1)
      let Ck := kchainbasis h k
      let Ckp1 := kchainbasis h (k + 1)
      (homology_basis (bkMatrix Ckm1 Ck) (bkMatrix Ck Ckp1)
        (some Ck) shortest).map Sum.inr

/-- C6 (amended): for a hypergraph with at least one edge and an
out-of-range dimension (`k < 1`, or `k+1` larger than every edge size),
`hypergraph_homology_basis` returns the informal string sentinel
`'wrong dim'`; it does not fail with a typed `InvalidDimension` error —
no such error type exists in the module. -/
theorem claim_C6 (h : List (List ℕ)) (k : ℕ) (shortest : Bool)
    (e : List ℕ) (he : e ∈ h)
    (hk : k < 1 ∨ ∀ e' ∈ h, e'.length < k + 1) :
    hypergraph_homology_basis h k shortest = some (Sum.inl ("wrong dim")) := by
  have hne : h.map (fun e => e.length) ≠ [] := by
    cases h with
    | nil => exact absurd he (List.not_mem_nil e)
    | cons a t => simp
  obtain ⟨M, hM⟩ : ∃ M, (h.map (fun e => e.length)).max? = some M := by
    cases hmax : (h.map (fun e => e.length)).max? with
    | none => exact absurd (List.max?_eq_none_iff.mp hmax) hne
    | some M => exact ⟨M, rfl⟩
  have hguard : k + 1 > M ∨ k < 1 := by
    rcases hk with hk | hk
    · exact Or.inr hk
    · left
      have hMmem : M ∈ h.map (fun e => e.length) :=
        List.max?_mem (fun a b => max_choice a b) hM
      rcases List.mem_map.mp hMmem with ⟨e', he', rfl⟩
      exact hk e' he'
  unfold hypergraph_homology_basis
  rw [hM]
  exact if_pos hguard

/-- Concrete instance of C6: one edge of size 2, `k = 5`. -/
theorem claim_C6_witness :
    hypergraph_homology_basis [[1, 2]] 5 false = some (Sum.inl ("wrong dim")) :=
  claim_C6 [[1, 2]] 5 false [1, 2] (by decide)
    (Or.inr (by decide))

/-- The original claim is refuted on a concrete invalid input: `k = 0` is
out of range and the function returns the string sentinel `'wrong dim'`
(wrapped in the success constructor), not a typed error. -/
theorem claim_C6_counterexample :
    hypergraph_homology_basis [[1, 2, 3]] 0 true = some (Sum.inl ("wrong dim")) := rfl

/-! ### Linear-algebra analysis of `homology_basis` (claim C2)

Throughout, `ZMod 2` carries its field structure; `Matrix.rank` is the
`GF(2)`-rank.  `rowsUntil` is the remaining numpy slice `M[:s, :]`, needed to
split `Linv·L = Identity` along the first `rank2` coordinates. -/

/-- `M[:s, :]` — numpy row slice up to `s` (clamped at `a`). -/
def rowsUntil {a b : ℕ} (M : Mat a b) (s : ℕ) : Mat (min s a) b :=
  fun i j => M ⟨i.val, by omega⟩ j

/-- A 0/1 row read back as a `GF(2)` vector. -/
def rowVec (row : List ℕ) (n : ℕ) : Fin n → ZMod 2 :=
  fun j => ((row.getD j.val 0 : ℕ) : ZMod 2)

theorem zmod2_cast_val : ∀ a : ZMod 2, ((a.val : ℕ) : ZMod 2) = a := by decide

theorem zmod2_val_le : ∀ a : ZMod 2, a.val ≤ 1 := by decide

theorem fin_sum_split (n s : ℕ) (f : Fin n → ZMod 2) :
    (∑ q : Fin n, f q)
      = (∑ j : Fin (min s n), f ⟨j.val, by omega⟩)
        + ∑ j : Fin (n - s), f ⟨s + j.val, by omega⟩ := by
  have hmn : min s n + (n - s) = n := by omega
  rw [← Fintype.sum_equiv (finCongr hmn) (fun q => f (finCongr hmn q)) f (fun q => rfl)]
  rw [Fin.sum_univ_add]
  have h1 : ∑ i : Fin (min s n), f (finCongr hmn (Fin.castAdd (n - s) i))
      = ∑ j : Fin (min s n), f ⟨j.val, by omega⟩ :=
    Finset.sum_congr rfl (fun j _ => congrArg f (Fin.ext rfl))
  have h2 : ∑ i : Fin (n - s), f (finCongr hmn (Fin.natAdd (min s n) i))
      = ∑ j : Fin (n - s), f ⟨s + j.val, by omega⟩ :=
    Finset.sum_congr rfl (fun j _ => congrArg f (Fin.ext (by
      show min s n + j.val = s + j.val
      have hj : j.val < n - s := j.isLt
      omega)))
  rw [h1, h2]

theorem mul_colsFrom {a b c : ℕ} (A : Mat a b) (B : Mat b c) (s : ℕ) :
    A * colsFrom B s = colsFrom (A * B) s := rfl

theorem mul_colsUntil {a b c : ℕ} (A : Mat a b) (B : Mat b c) (s : ℕ) :
    A * colsUntil B s = colsUntil (A * B) s := rfl

theorem rowsFrom_mul {a b c : ℕ} (A : Mat a b) (B : Mat b c) (s : ℕ) :
    rowsFrom A s * B = rowsFrom (A * B) s := rfl

theorem mul_split {a b c : ℕ} (A : Mat a b) (B : Mat b c) (s : ℕ) :
    colsUntil A s * rowsUntil B s + colsFrom A s * rowsFrom B s = A * B := by
  ext i j
  rw [Matrix.add_apply, Matrix.mul_apply, Matrix.mul_apply, Matrix.mul_apply]
  rw [fin_sum_split b s (fun q => A i q * B q j)]
  congr 1

theorem sum_range_ite (t : ℕ) : ∀ mm, t ≤ mm →
    (∑ i ∈ Finset.range mm, if i < t then (1 : ℕ) else 0) = t := by
  intro mm
  induction mm with
  | zero =>
      intro h
      have ht0 : t = 0 := by omega
      subst ht0
      rfl
  | succ mm ih =>
      intro h
      rw [Finset.sum_range_succ]
      by_cases hmt : t ≤ mm
      · rw [ih hmt, if_neg (by omega)]
        omega
      · have h1 : ∑ i ∈ Finset.range mm, (if i < t then (1 : ℕ) else 0)
            = ∑ i ∈ Finset.range mm, 1 :=
          Finset.sum_congr rfl (fun i hi => if_pos (by
            have := Finset.mem_range.mp hi
            omega))
        rw [h1, Finset.sum_const, smul_eq_mul, mul_one, Finset.card_range, if_pos (by omega)]
        omega

theorem diag_matSum {a b : ℕ} {S : Mat a b} {t : ℕ} (ht : t ≤ min a b)
    (hd : diagShape t S) : matSum S = t := by
  unfold matSum
  have hrow : ∀ i : Fin a, (∑ j, (S i j).val) = if i.val < t then 1 else 0 := by
    intro i
    by_cases hin : i.val < b
    · have hsingle : (∑ j, (S i j).val) = (S i ⟨i.val, hin⟩).val := by
        apply Finset.sum_eq_single
        · intro j _ hj
          rw [hd i j, if_neg (fun hcon => hj (Fin.ext hcon.1.symm))]
          rfl
        · intro hmem
          exact absurd (Finset.mem_univ _) hmem
      rw [hsingle, hd i ⟨i.val, hin⟩]
      by_cases hit : i.val < t
      · rw [if_pos ⟨rfl, hit⟩, if_pos hit]
        decide
      · rw [if_neg (fun hcon => hit hcon.2), if_neg hit]
        rfl
    · rw [if_neg (by omega)]
      apply Finset.sum_eq_zero
      intro j _
      rw [hd i j, if_neg (by
        intro hcon
        have hjb : j.val < b := j.isLt
        omega)]
      rfl
  rw [Finset.sum_congr rfl (fun i _ => hrow i)]
  rw [Fin.sum_univ_eq_sum_range (fun i => if i < t then (1 : ℕ) else 0) a]
  exact sum_range_ite t a (by omega)

theorem snf_shape {a b : ℕ} (M : Mat a b) :
    ∃ t, t ≤ min a b ∧ diagShape t (smith_normal_form_mod2 M).S := by
  have h0 : snfRegion 0 (⟨M, 1, 1, 1⟩ : SNFState a b).S := by
    intro i j hij
    exfalso
    rcases hij with h | h <;> omega
  obtain ⟨t, ht, hd⟩ := snfGo_shape (min a b) 0 ⟨M, 1, 1, 1⟩ (by omega) (by omega) h0
  exact ⟨t, ht, hd⟩

theorem colsFrom_diag_zero {a b : ℕ} {S : Mat a b} {t : ℕ} (hd : diagShape t S) :
    colsFrom S t = 0 := by
  ext i j
  have h := hd i ⟨t + j.val, by omega⟩
  rw [if_neg (by omega : ¬((i.val : ℕ) = t + j.val ∧ i.val < t))] at h
  exact h

theorem rowsFrom_diag_zero {a b : ℕ} {S : Mat a b} {t : ℕ} (hd : diagShape t S) :
    rowsFrom S t = 0 := by
  ext i j
  have h := hd ⟨t + i.val, by omega⟩ j
  rw [if_neg (by omega : ¬(t + i.val = (j.val : ℕ) ∧ t + i.val < t))] at h
  exact h

/-- The column-selection matrix with `E q j = 1` iff `q = s + j`:
`colsFrom A s = A * E`. -/
def EFrom (b s : ℕ) : Mat b (b - s) :=
  fun q j => if q.val = s + j.val then 1 else 0

theorem colsFrom_eq_mul {a b : ℕ} (A : Mat a b) (s : ℕ) :
    colsFrom A s = A * EFrom b s := by
  ext i j
  rw [Matrix.mul_apply]
  rw [Finset.sum_eq_single (⟨s + j.val, by omega⟩ : Fin b)
    (fun q _ hq => by
      rw [show EFrom b s q j = if q.val = s + j.val then 1 else 0 from rfl,
        if_neg (fun hc => hq (Fin.ext hc)), mul_zero])
    (fun hmem => absurd (Finset.mem_univ _) hmem)]
  rw [show EFrom b s ⟨s + j.val, by omega⟩ j = if s + j.val = s + j.val then 1 else 0 from rfl,
    if_pos rfl, mul_one]
  rfl

theorem EFrom_mulVec_low {b s : ℕ} (w : Fin (b - s) → ZMod 2) (q : Fin b)
    (hq : q.val < s) : (EFrom b s).mulVec w q = 0 := by
  show ∑ jj, EFrom b s q jj * w jj = 0
  apply Finset.sum_eq_zero
  intro jj _
  rw [show EFrom b s q jj = if q.val = s + jj.val then 1 else 0 from rfl,
    if_neg (by omega), zero_mul]

theorem EFrom_mulVec_high {b s : ℕ} (w : Fin (b - s) → ZMod 2) (q : Fin b)
    (hq : s ≤ q.val) : (EFrom b s).mulVec w q = w ⟨q.val - s, by omega⟩ := by
  show ∑ jj, EFrom b s q jj * w jj = w ⟨q.val - s, by omega⟩
  rw [Finset.sum_eq_single (⟨q.val - s, by omega⟩ : Fin (b - s))
    (fun jj _ hjj => by
      rw [show EFrom b s q jj = if q.val = s + jj.val then 1 else 0 from rfl,
        if_neg (fun hc => hjj (Fin.ext (show jj.val = q.val - s by omega))), zero_mul])
    (fun hmem => absurd (Finset.mem_univ _) hmem)]
  rw [show EFrom b s q ⟨q.val - s, by omega⟩
      = if q.val = s + (q.val - s) then 1 else 0 from rfl,
    if_pos (by omega), one_mul]

theorem EFrom_inj {b s : ℕ} : Function.Injective ⇑(EFrom b s).mulVecLin := by
  intro w w' hww
  have h0 : (EFrom b s).mulVec w = (EFrom b s).mulVec w' := hww
  funext j
  have h1 := congrFun h0 ⟨s + j.val, by omega⟩
  rw [EFrom_mulVec_high w _ (by show s ≤ s + j.val; omega),
    EFrom_mulVec_high w' _ (by show s ≤ s + j.val; omega)] at h1
  have e : (⟨(⟨s + j.val, by omega⟩ : Fin b).val - s,
      by show s + j.val - s < b - s; omega⟩ : Fin (b - s)) = j :=
    Fin.ext (by show s + j.val - s = j.val; omega)
  rw [e] at h1
  exact h1

theorem snf_ker {a b : ℕ} (M : Mat a b) (r : ℕ)
    (hr : matSum (smith_normal_form_mod2 M).S = r) :
    r ≤ min a b ∧
    M * colsFrom (smith_normal_form_mod2 M).R r = 0 ∧
    Function.Injective ⇑(colsFrom (smith_normal_form_mod2 M).R r).mulVecLin ∧
    LinearMap.range (colsFrom (smith_normal_form_mod2 M).R r).mulVecLin
      = LinearMap.ker M.mulVecLin ∧
    M.rank = r := by
  obtain ⟨t, ht, hd⟩ := snf_shape M
  have hrt : r = t := by rw [← hr, diag_matSum ht hd]
  subst hrt
  obtain ⟨heq, hL1, hL2, Rinv, hR1, hR2⟩ := snf_basic M
  have hMR : M * (smith_normal_form_mod2 M).R
      = (smith_normal_form_mod2 M).Linv * (smith_normal_form_mod2 M).S := by
    rw [← heq]
    rw [show (smith_normal_form_mod2 M).Linv
          * ((smith_normal_form_mod2 M).L * M * (smith_normal_form_mod2 M).R)
        = ((smith_normal_form_mod2 M).Linv * (smith_normal_form_mod2 M).L)
          * (M * (smith_normal_form_mod2 M).R) from by
      simp only [Matrix.mul_assoc], hL2, Matrix.one_mul]
  have hker0 : M * colsFrom (smith_normal_form_mod2 M).R r = 0 := by
    rw [mul_colsFrom, hMR, ← mul_colsFrom, colsFrom_diag_zero hd, Matrix.mul_zero]
  have hRinj : Function.Injective ⇑(smith_normal_form_mod2 M).R.mulVecLin := by
    intro v v' hv
    have h1 : (smith_normal_form_mod2 M).R.mulVec v
        = (smith_normal_form_mod2 M).R.mulVec v' := hv
    have h2 := congrArg (fun x => Rinv.mulVec x) h1
    dsimp only at h2
    rw [Matrix.mulVec_mulVec, Matrix.mulVec_mulVec, hR2, Matrix.one_mulVec,
      Matrix.one_mulVec] at h2
    exact h2
  have hcompinj : Function.Injective ⇑(colsFrom (smith_normal_form_mod2 M).R r).mulVecLin := by
    rw [colsFrom_eq_mul, Matrix.mulVecLin_mul, LinearMap.coe_comp]
    exact Function.Injective.comp hRinj EFrom_inj
  have hrange : LinearMap.range (colsFrom (smith_normal_form_mod2 M).R r).mulVecLin
      = LinearMap.ker M.mulVecLin := by
    apply le_antisymm
    · rintro x ⟨w, rfl⟩
      show M.mulVecLin ((colsFrom (smith_normal_form_mod2 M).R r).mulVecLin w) = 0
      show M.mulVec ((colsFrom (smith_normal_form_mod2 M).R r).mulVec w) = 0
      rw [Matrix.mulVec_mulVec, hker0, Matrix.zero_mulVec]
    · intro v hv
      rw [LinearMap.mem_ker] at hv
      have hv' : M.mulVec v = 0 := hv
      have hRu : (smith_normal_form_mod2 M).R.mulVec (Rinv.mulVec v) = v := by
        rw [Matrix.mulVec_mulVec, hR1, Matrix.one_mulVec]
      have hSu : (smith_normal_form_mod2 M).S.mulVec (Rinv.mulVec v) = 0 := by
        rw [← heq]
        simp only [← Matrix.mulVec_mulVec]
        rw [hRu, hv', Matrix.mulVec_zero]
      have hulow : ∀ q : Fin b, q.val < r → Rinv.mulVec v q = 0 := by
        intro q hq
        have hqa : q.val < a := by omega
        have h0 := congrFun hSu ⟨q.val, hqa⟩
        rw [show (smith_normal_form_mod2 M).S.mulVec (Rinv.mulVec v) ⟨q.val, hqa⟩
            = ∑ c, (smith_normal_form_mod2 M).S ⟨q.val, hqa⟩ c * Rinv.mulVec v c from rfl] at h0
        rw [Finset.sum_eq_single q
          (fun c _ hc => by
            rw [hd ⟨q.val, hqa⟩ c, if_neg (fun hcon => hc (Fin.ext hcon.1.symm)), zero_mul])
          (fun hmem => absurd (Finset.mem_univ _) hmem)] at h0
        rw [hd ⟨q.val, hqa⟩ q, if_pos ⟨rfl, hq⟩, one_mul] at h0
        exact h0
      refine ⟨(fun j => Rinv.mulVec v ⟨r + j.val, by omega⟩), ?_⟩
      show (colsFrom (smith_normal_form_mod2 M).R r).mulVec
        (fun j => Rinv.mulVec v ⟨r + j.val, by omega⟩) = v
      rw [colsFrom_eq_mul, ← Matrix.mulVec_mulVec]
      have hEw : (EFrom b r).mulVec (fun j => Rinv.mulVec v ⟨r + j.val, by omega⟩)
          = Rinv.mulVec v := by
        funext q
        by_cases hq : q.val < r
        · rw [EFrom_mulVec_low _ q hq, hulow q hq]
        · rw [EFrom_mulVec_high _ q (by omega)]
          exact congrArg (Rinv.mulVec v) (Fin.ext (by show r + (q.val - r) = q.val; omega))
      rw [hEw, hRu]
  have hfd : M.rank = r := by
    have hrn := LinearMap.finrank_range_add_finrank_ker M.mulVecLin
    have hpi : Module.finrank (ZMod 2) (Fin b → ZMod 2) = b := by
      simp [Module.finrank_pi]
    rw [hpi] at hrn
    have hker : Module.finrank (ZMod 2) (LinearMap.ker M.mulVecLin) = b - r := by
      rw [← hrange, LinearMap.finrank_range_of_inj hcompinj]
      simp [Module.finrank_pi]
    rw [hker] at hrn
    show Module.finrank (ZMod 2) (LinearMap.range M.mulVecLin) = r
    omega
  exact ⟨ht, hker0, hcompinj, hrange, hfd⟩

theorem sum_dite_lt {n : ℕ} (s : ℕ) (g : Fin n → ZMod 2) (y : Fin (min s n) → ZMod 2) :
    (∑ q : Fin n, g q * (if h : q.val < min s n then y ⟨q.val, h⟩ else 0))
      = ∑ j : Fin (min s n), g ⟨j.val, by omega⟩ * y j := by
  rw [fin_sum_split n s
    (fun q => g q * (if h : q.val < min s n then y ⟨q.val, h⟩ else 0))]
  have h2 : (∑ j : Fin (n - s), (fun q : Fin n =>
      g q * (if h : q.val < min s n then y ⟨q.val, h⟩ else 0)) ⟨s + j.val, by omega⟩) = 0 := by
    apply Finset.sum_eq_zero
    intro j _
    dsimp only
    rw [dif_neg (by omega), mul_zero]
  rw [h2, add_zero]
  apply Finset.sum_congr rfl
  intro j _
  dsimp only
  rw [dif_pos (by omega)]

set_option synthInstance.maxHeartbeats 1000000 in
theorem homology_core {m n p : ℕ} (bd1 : Mat m n) (bd2 : Mat n p)
    (hcomp : bd1 * bd2 = 0) (r1 r2 : ℕ)
    (h1 : matSum (smith_normal_form_mod2 bd1).S = r1)
    (h2 : matSum (smith_normal_form_mod2 bd2).S = r2) :
    bd1 * (colsFrom (smith_normal_form_mod2 bd2).Linv r2
        * rowsFrom (smith_normal_form_mod2 bd2).L r2
        * colsFrom (smith_normal_form_mod2 bd1).R r1) = 0 ∧
    (colsFrom (smith_normal_form_mod2 bd2).Linv r2
        * rowsFrom (smith_normal_form_mod2 bd2).L r2
        * colsFrom (smith_normal_form_mod2 bd1).R r1).rank
      + bd2.rank + bd1.rank = n := by
  obtain ⟨hr1le, hbd1ker1, hker1inj, hker1range, hrank1⟩ := snf_ker bd1 r1 h1
  obtain ⟨hr2le, -, -, -, hrank2⟩ := snf_ker bd2 r2 h2
  obtain ⟨t2, ht2, hd2⟩ := snf_shape bd2
  have ht2r : t2 = r2 := by rw [← h2, diag_matSum ht2 hd2]
  subst ht2r
  obtain ⟨heq2, hL1b, hL2b, R2inv, hR1b, hR2b⟩ := snf_basic bd2
  set st1 := smith_normal_form_mod2 bd1 with hst1
  set st2 := smith_normal_form_mod2 bd2 with hst2
  have hLbd2 : st2.L * bd2 = st2.S * R2inv := by
    have hstep : st2.L * bd2 = (st2.L * bd2 * st2.R) * R2inv := by
      rw [show (st2.L * bd2 * st2.R) * R2inv = (st2.L * bd2) * (st2.R * R2inv) from by
        simp only [Matrix.mul_assoc], hR1b, Matrix.mul_one]
    rw [hstep, heq2]
  have hLinvS2 : st2.Linv * st2.S = bd2 * st2.R := by
    rw [← heq2, show st2.Linv * (st2.L * bd2 * st2.R)
        = (st2.Linv * st2.L) * (bd2 * st2.R) from by
      simp only [Matrix.mul_assoc], hL2b, Matrix.one_mul]
  have hcpj_bd2 : rowsFrom st2.L t2 * bd2 = 0 := by
    rw [rowsFrom_mul, hLbd2, ← rowsFrom_mul, rowsFrom_diag_zero hd2, Matrix.zero_mul]
  have hXS2 : (bd1 * st2.Linv) * st2.S = 0 := by
    rw [show (bd1 * st2.Linv) * st2.S = bd1 * (st2.Linv * st2.S) from by
      simp only [Matrix.mul_assoc], hLinvS2, show bd1 * (bd2 * st2.R)
        = (bd1 * bd2) * st2.R from by simp only [Matrix.mul_assoc], hcomp, Matrix.zero_mul]
  have hXlow : ∀ (i : Fin m) (q : Fin n), q.val < t2 → (bd1 * st2.Linv) i q = 0 := by
    intro i q hq
    have hqp : q.val < p := by omega
    have h0 : ((bd1 * st2.Linv) * st2.S) i ⟨q.val, hqp⟩ = 0 := by
      rw [hXS2]
      rfl
    rw [Matrix.mul_apply] at h0
    rw [Finset.sum_eq_single q
      (fun c _ hc => by
        rw [hd2 c ⟨q.val, hqp⟩, if_neg (fun hcon => hc (Fin.ext (by
          have hval : ((⟨q.val, hqp⟩ : Fin p)).val = q.val := rfl
          omega))), mul_zero])
      (fun hmem => absurd (Finset.mem_univ _) hmem)] at h0
    rw [hd2 q ⟨q.val, hqp⟩, if_pos ⟨rfl, hq⟩, mul_one] at h0
    exact h0
  have hbd1cu : bd1 * colsUntil st2.Linv t2 = 0 := by
    rw [mul_colsUntil]
    ext i j
    have hj : j.val < t2 := by
      have := j.isLt
      omega
    exact hXlow i ⟨j.val, by omega⟩ hj
  have hsplit : colsUntil st2.Linv t2 * rowsUntil st2.L t2
      + colsFrom st2.Linv t2 * rowsFrom st2.L t2 = 1 := by
    rw [mul_split, hL2b]
  have hKeq : colsFrom st2.Linv t2 * rowsFrom st2.L t2
      = 1 - colsUntil st2.Linv t2 * rowsUntil st2.L t2 := by
    rw [← hsplit, add_sub_cancel_left]
  have hbd1K : bd1 * (colsFrom st2.Linv t2 * rowsFrom st2.L t2 * colsFrom st1.R r1) = 0 := by
    rw [show bd1 * (colsFrom st2.Linv t2 * rowsFrom st2.L t2 * colsFrom st1.R r1)
        = (bd1 * (colsFrom st2.Linv t2 * rowsFrom st2.L t2)) * colsFrom st1.R r1 from by
      simp only [Matrix.mul_assoc]]
    rw [hKeq, Matrix.mul_sub, Matrix.mul_one, Matrix.sub_mul, hbd1ker1]
    rw [show (bd1 * (colsUntil st2.Linv t2 * rowsUntil st2.L t2)) * colsFrom st1.R r1
        = (bd1 * colsUntil st2.Linv t2) * (rowsUntil st2.L t2 * colsFrom st1.R r1) from by
      simp only [Matrix.mul_assoc]]
    rw [hbd1cu, Matrix.zero_mul, sub_zero]
  have hK'bd2 : (colsFrom st2.Linv t2 * rowsFrom st2.L t2) * bd2 = 0 := by
    rw [show (colsFrom st2.Linv t2 * rowsFrom st2.L t2) * bd2
        = colsFrom st2.Linv t2 * (rowsFrom st2.L t2 * bd2) from by
      simp only [Matrix.mul_assoc], hcpj_bd2, Matrix.mul_zero]
  have hcu_range : ∀ y : Fin (min t2 n) → ZMod 2,
      (colsUntil st2.Linv t2).mulVec y ∈ LinearMap.range bd2.mulVecLin := by
    intro y
    refine ⟨st2.R.mulVec (fun c : Fin p =>
      if h : c.val < min t2 n then y ⟨c.val, h⟩ else 0), ?_⟩
    show bd2.mulVec (st2.R.mulVec (fun c : Fin p =>
      if h : c.val < min t2 n then y ⟨c.val, h⟩ else 0)) = (colsUntil st2.Linv t2).mulVec y
    rw [Matrix.mulVec_mulVec, ← hLinvS2, ← Matrix.mulVec_mulVec]
    have hS2y : st2.S.mulVec (fun c : Fin p =>
        if h : c.val < min t2 n then y ⟨c.val, h⟩ else 0)
        = (fun q : Fin n => if h : q.val < min t2 n then y ⟨q.val, h⟩ else 0) := by
      funext q
      show (∑ c, st2.S q c * _) = _
      by_cases hq : q.val < t2
      · have hqp : q.val < p := by omega
        have hqmin : q.val < min t2 n := by
          have := q.isLt
          omega
        rw [Finset.sum_eq_single (⟨q.val, hqp⟩ : Fin p)
          (fun c _ hc => by
            rw [hd2 q c, if_neg (fun hcon => hc (Fin.ext (by
              have hval : ((⟨q.val, hqp⟩ : Fin p)).val = q.val := rfl
              omega))), zero_mul])
          (fun hmem => absurd (Finset.mem_univ _) hmem)]
        rw [hd2 q ⟨q.val, hqp⟩, if_pos ⟨rfl, hq⟩, one_mul]
      · rw [dif_neg (by omega)]
        apply Finset.sum_eq_zero
        intro c _
        rw [hd2 q c, if_neg (fun hcon => hq hcon.2), zero_mul]
    rw [hS2y]
    funext i
    show (∑ q : Fin n, st2.Linv i q * (if h : q.val < min t2 n then y ⟨q.val, h⟩ else 0))
      = ∑ j, colsUntil st2.Linv t2 i j * y j
    rw [sum_dite_lt t2 (fun q => st2.Linv i q) y]
    apply Finset.sum_congr rfl
    intro j _
    rfl
  have hkerK : LinearMap.ker (colsFrom st2.Linv t2 * rowsFrom st2.L t2).mulVecLin
      = LinearMap.range bd2.mulVecLin := by
    apply le_antisymm
    · intro v hv
      rw [LinearMap.mem_ker] at hv
      have hv' : (colsFrom st2.Linv t2 * rowsFrom st2.L t2).mulVec v = 0 := hv
      have hid : (colsUntil st2.Linv t2 * rowsUntil st2.L t2).mulVec v
          + (colsFrom st2.Linv t2 * rowsFrom st2.L t2).mulVec v = v := by
        rw [← Matrix.add_mulVec, hsplit, Matrix.one_mulVec]
      rw [hv', add_zero] at hid
      rw [← hid, ← Matrix.mulVec_mulVec]
      exact hcu_range ((rowsUntil st2.L t2).mulVec v)
    · rintro x ⟨w, rfl⟩
      rw [LinearMap.mem_ker]
      show (colsFrom st2.Linv t2 * rowsFrom st2.L t2).mulVec (bd2.mulVec w) = 0
      rw [Matrix.mulVec_mulVec, hK'bd2, Matrix.zero_mulVec]
  have hUleW : LinearMap.range bd2.mulVecLin ≤ LinearMap.ker bd1.mulVecLin := by
    rintro x ⟨w, rfl⟩
    rw [LinearMap.mem_ker]
    show bd1.mulVec (bd2.mulVec w) = 0
    rw [Matrix.mulVec_mulVec, hcomp, Matrix.zero_mulVec]
  have hrn := LinearMap.finrank_range_add_finrank_ker
    ((colsFrom st2.Linv t2 * rowsFrom st2.L t2).mulVecLin.comp
      (LinearMap.ker bd1.mulVecLin).subtype)
  rw [LinearMap.range_comp, Submodule.range_subtype, LinearMap.ker_comp, hkerK] at hrn
  have hcomapfr : Module.finrank (ZMod 2)
      (Submodule.comap (LinearMap.ker bd1.mulVecLin).subtype
        (LinearMap.range bd2.mulVecLin)) = bd2.rank :=
    (Submodule.comapSubtypeEquivOfLe hUleW).finrank_eq
  rw [hcomapfr] at hrn
  have hWrn := LinearMap.finrank_range_add_finrank_ker bd1.mulVecLin
  have hpin : Module.finrank (ZMod 2) (Fin n → ZMod 2) = n := by
    simp [Module.finrank_pi]
  rw [hpin] at hWrn
  have hckpk : (colsFrom st2.Linv t2 * rowsFrom st2.L t2 * colsFrom st1.R r1).rank
      = Module.finrank (ZMod 2) (Submodule.map
        (colsFrom st2.Linv t2 * rowsFrom st2.L t2).mulVecLin
        (LinearMap.ker bd1.mulVecLin)) := by
    show Module.finrank (ZMod 2)
        (LinearMap.range (colsFrom st2.Linv t2 * rowsFrom st2.L t2
          * colsFrom st1.R r1).mulVecLin) = _
    rw [Matrix.mulVecLin_mul, LinearMap.range_comp, hker1range]
  refine ⟨hbd1K, ?_⟩
  rw [hckpk]
  rw [show bd1.rank = Module.finrank (ZMod 2) (LinearMap.range bd1.mulVecLin) from rfl]
  omega

theorem echelon_rows_indep {a b : ℕ} {S : Mat a b} {t : ℕ} {cs : ℕ → ℕ}
    (hE : EchelonStruct t cs S) :
    LinearIndependent (ZMod 2) (fun q : Fin t => S ⟨q.val, (hE.1 q.val q.isLt).1⟩) := by
  rw [Fintype.linearIndependent_iff]
  intro g hg q0
  have hcsb : cs q0.val < b := (hE.1 q0.val q0.isLt).2.1
  have h0 := congrFun hg ⟨cs q0.val, hcsb⟩
  rw [Finset.sum_apply] at h0
  rw [Finset.sum_eq_single q0
    (fun q _ hq => by
      rw [Pi.smul_apply, smul_eq_mul]
      rw [hE.2.2.2.2.1 ⟨q.val, (hE.1 q.val q.isLt).1⟩ ⟨cs q0.val, hcsb⟩ q0.val q0.isLt
        (fun hcon => hq (Fin.ext hcon.symm)) rfl, mul_zero])
    (fun hmem => absurd (Finset.mem_univ _) hmem)] at h0
  rw [Pi.smul_apply, smul_eq_mul, hE.2.2.1 _ _ q0.isLt rfl, mul_one] at h0
  exact h0

theorem echelon_rank {a b : ℕ} (S : Mat a b) (t : ℕ) (cs : ℕ → ℕ)
    (hE : EchelonStruct t cs S) : S.rank = t := by
  have h1 : S.rank
      = Module.finrank (ZMod 2) (Submodule.span (ZMod 2) (Set.range S)) := by
    rw [← Matrix.rank_transpose]
    show Module.finrank (ZMod 2) (LinearMap.range S.transpose.mulVecLin) = _
    rw [Matrix.range_mulVecLin, Matrix.transpose_transpose]
  rw [h1]
  have h2 : Submodule.span (ZMod 2) (Set.range S)
      = Submodule.span (ZMod 2)
        (Set.range (fun q : Fin t => S ⟨q.val, (hE.1 q.val q.isLt).1⟩)) := by
    apply le_antisymm
    · rw [Submodule.span_le]
      rintro x ⟨i, rfl⟩
      by_cases hi : i.val < t
      · apply Submodule.subset_span
        exact ⟨⟨i.val, hi⟩, congrArg S (Fin.ext rfl)⟩
      · have hz : S i = 0 := by
          funext j
          exact hE.2.2.2.2.2 i j (by omega)
        rw [hz]
        exact Submodule.zero_mem _
    · rw [Submodule.span_le]
      rintro x ⟨q, rfl⟩
      apply Submodule.subset_span
      exact ⟨⟨q.val, (hE.1 q.val q.isLt).1⟩, rfl⟩
  rw [h2, finrank_span_eq_card (echelon_rows_indep hE), Fintype.card_fin]

theorem echelon_filter {a b : ℕ} (S : Mat a b) (t : ℕ) (cs : ℕ → ℕ)
    (hE : EchelonStruct t cs S) :
    t ≤ a ∧ (matToList S).filter (fun row => decide (0 < row.sum))
      = (matToList S).take t := by
  have hta : t ≤ a := by
    cases t with
    | zero => omega
    | succ tt => exact (hE.1 tt (Nat.lt_succ_self tt)).1
  have hlen : (matToList S).length = a := List.length_ofFn _
  have key1 : ∀ i : Fin a, i.val < t →
      decide (0 < (List.ofFn (fun j : Fin b => (S i j).val)).sum) = true := by
    intro i hi
    apply decide_eq_true
    apply Nat.pos_of_ne_zero
    intro hsum
    have hcsb : cs i.val < b := (hE.1 i.val hi).2.1
    have hlt : cs i.val < (List.ofFn (fun j : Fin b => (S i j).val)).length := by
      rw [List.length_ofFn]
      omega
    have hmem := List.getElem_mem hlt
    have hz := List.sum_eq_zero_iff.mp hsum _ hmem
    rw [List.getElem_ofFn] at hz
    rw [hE.2.2.1 i ⟨cs i.val, hcsb⟩ hi rfl] at hz
    exact absurd hz (by decide)
  have key2 : ∀ i : Fin a, t ≤ i.val →
      decide (0 < (List.ofFn (fun j : Fin b => (S i j).val)).sum) = false := by
    intro i hi
    apply decide_eq_false
    have hz : (List.ofFn (fun j : Fin b => (S i j).val)).sum = 0 := by
      apply List.sum_eq_zero
      intro x hx
      rcases (List.mem_ofFn _ _).mp hx with ⟨j, rfl⟩
      show (S i j).val = 0
      rw [hE.2.2.2.2.2 i j hi]
      rfl
    omega
  refine ⟨hta, ?_⟩
  calc (matToList S).filter (fun row => decide (0 < row.sum))
      = ((matToList S).take t ++ (matToList S).drop t).filter
          (fun row => decide (0 < row.sum)) := by rw [List.take_append_drop]
    _ = ((matToList S).take t).filter (fun row => decide (0 < row.sum))
          ++ ((matToList S).drop t).filter (fun row => decide (0 < row.sum)) :=
        List.filter_append _ _
    _ = (matToList S).take t ++ [] := by
        rw [List.filter_eq_self.mpr, List.filter_eq_nil_iff.mpr]
        · intro row hrw
          rcases List.mem_iff_getElem.mp hrw with ⟨k, hk, hrk⟩
          have hk2 : k < a - t := by
            rw [List.length_drop, hlen] at hk
            omega
          rw [List.getElem_drop] at hrk
          have hkt : t + k < a := by omega
          have hr2 : row = List.ofFn (fun j : Fin b => (S ⟨t + k, hkt⟩ j).val) := by
            rw [← hrk]
            exact List.getElem_ofFn _ _ _
          rw [hr2, key2 ⟨t + k, hkt⟩ (by show t ≤ t + k; omega)]
          exact Bool.false_ne_true
        · intro row hrw
          rcases List.mem_iff_getElem.mp hrw with ⟨k, hk, hrk⟩
          have hk2 : k < t := by
            rw [List.length_take, hlen] at hk
            omega
          rw [List.getElem_take] at hrk
          have hka : k < a := by omega
          have hr2 : row = List.ofFn (fun j : Fin b => (S ⟨k, hka⟩ j).val) := by
            rw [← hrk]
            exact List.getElem_ofFn _ _ _
          rw [hr2]
          exact key1 ⟨k, hka⟩ hk2
    _ = (matToList S).take t := List.append_nil _

theorem rowVec_ofFn {n : ℕ} (v : Fin n → ZMod 2) :
    rowVec (List.ofFn (fun j => (v j).val)) n = v := by
  funext j
  show (((List.ofFn (fun j => (v j).val)).getD j.val 0 : ℕ) : ZMod 2) = v j
  have hjl : j.val < (List.ofFn (fun j => (v j).val)).length := by
    rw [List.length_ofFn]
    exact j.isLt
  rw [List.getD_eq_getElem _ _ hjl, List.getElem_ofFn, zmod2_cast_val]

/-- C2: on 0/1 boundary matrices `bd1 : m × n`, `bd2 : n × p` with
`bd1·bd2 = 0` over `GF(2)`, `homology_basis(bd, k)` (no `C`,
`shortest=False`) returns exactly `n - rank(bd1) - rank(bd2)` rows, each a
nonzero 0/1 vector of length `n` lying in the kernel of `bd1`, and the rows
are linearly independent over `GF(2)`. -/
theorem claim_C2 {m n p : ℕ} (bd1 : Mat m n) (bd2 : Mat n p)
    (hcomp : bd1 * bd2 = 0) :
    ∃ rows, homology_basis bd1 bd2 none false = some (HBOut.vectors rows) ∧
      rows.length + bd1.rank + bd2.rank = n ∧
      (∀ row ∈ rows, row.length = n ∧ (∀ x ∈ row, x ≤ 1) ∧ 0 < row.sum ∧
        bd1.mulVec (rowVec row n) = 0) ∧
      LinearIndependent (ZMod 2)
        (fun q : Fin rows.length => rowVec (rows.getD q.val []) n) := by
  set r1 := matSum (smith_normal_form_mod2 bd1).S with hr1
  set r2 := matSum (smith_normal_form_mod2 bd2).S with hr2
  set CKPK := colsFrom (smith_normal_form_mod2 bd2).Linv r2
    * rowsFrom (smith_normal_form_mod2 bd2).L r2
    * colsFrom (smith_normal_form_mod2 bd1).R r1 with hCKPK
  obtain ⟨hbd1K, hcount⟩ := homology_core bd1 bd2 hcomp r1 r2 hr1.symm hr2.symm
  rw [← hCKPK] at hbd1K hcount
  obtain ⟨t3, cs, hE⟩ := rref_struct CKPK.transpose
  obtain ⟨hL3eq, hL3a, hL3b⟩ := rref_basic CKPK.transpose
  set st3 := reduced_row_echelon_form_mod2 CKPK.transpose with hst3
  obtain ⟨hta, hfilter⟩ := echelon_filter st3.S t3 cs hE
  have hdet : IsUnit st3.L.det :=
    isUnit_of_mul_eq_one _ st3.Linv.det (by rw [← Matrix.det_mul, hL3a, Matrix.det_one])
  have hrankchain : t3 = CKPK.rank := by
    have e1 : st3.S.rank = t3 := echelon_rank st3.S t3 cs hE
    have e2 : st3.S.rank = CKPK.transpose.rank := by
      rw [← hL3eq]
      exact Matrix.rank_mul_eq_right_of_isUnit_det _ _ hdet
    have e3 : CKPK.transpose.rank = CKPK.rank := Matrix.rank_transpose _
    omega
  have hlenL : (matToList st3.S).length = n - r1 := List.length_ofFn _
  have hHB : homology_basis bd1 bd2 none false
      = some (HBOut.vectors ((matToList st3.S).filter
          (fun row => decide (0 < row.sum)))) := rfl
  have hzero : bd1 * st3.S.transpose = 0 := by
    rw [← hL3eq, Matrix.transpose_mul, Matrix.transpose_transpose]
    rw [show bd1 * (CKPK * st3.L.transpose) = (bd1 * CKPK) * st3.L.transpose from by
      simp only [Matrix.mul_assoc], hbd1K, Matrix.zero_mul]
  refine ⟨(matToList st3.S).take t3, ?_, ?_, ?_, ?_⟩
  · rw [hHB, hfilter]
  · rw [List.length_take, hlenL]
    omega
  · intro row hrw
    have hmemf : row ∈ (matToList st3.S).filter (fun row => decide (0 < row.sum)) := by
      rw [hfilter]
      exact hrw
    have hsum : 0 < row.sum := of_decide_eq_true (List.mem_filter.mp hmemf).2
    rcases List.mem_iff_getElem.mp hrw with ⟨k, hk, hrk⟩
    have hkt : k < t3 := by
      rw [List.length_take, hlenL] at hk
      omega
    have hka : k < n - r1 := by
      rw [List.length_take, hlenL] at hk
      omega
    rw [List.getElem_take] at hrk
    have hrw2 : row = List.ofFn (fun j : Fin n => (st3.S ⟨k, hka⟩ j).val) := by
      rw [← hrk]
      exact List.getElem_ofFn _ _ _
    subst hrw2
    refine ⟨List.length_ofFn _, ?_, hsum, ?_⟩
    · intro x hx
      rcases (List.mem_ofFn _ _).mp hx with ⟨j, rfl⟩
      exact zmod2_val_le _
    · rw [rowVec_ofFn]
      funext qq
      show (∑ j, bd1 qq j * st3.S ⟨k, hka⟩ j) = 0
      have h0 : (bd1 * st3.S.transpose) qq ⟨k, hka⟩ = 0 := by
        rw [hzero]
        rfl
      rw [Matrix.mul_apply] at h0
      exact h0
  · have hlentake : ((matToList st3.S).take t3).length = t3 := by
      rw [List.length_take, hlenL]
      omega
    have hfam : (fun q : Fin ((matToList st3.S).take t3).length =>
        rowVec (((matToList st3.S).take t3).getD q.val []) n)
        = (fun q : Fin t3 => st3.S ⟨q.val, (hE.1 q.val q.isLt).1⟩)
          ∘ (fun q : Fin ((matToList st3.S).take t3).length =>
              (⟨q.val, by omega⟩ : Fin t3)) := by
      funext q
      have hq3 : q.val < t3 := by
        have := q.isLt
        omega
      have hqa : q.val < n - r1 := by omega
      have hget : ((matToList st3.S).take t3).getD q.val []
          = List.ofFn (fun j : Fin n => (st3.S ⟨q.val, hqa⟩ j).val) := by
        rw [List.getD_eq_getElem _ _ (by omega), List.getElem_take]
        exact List.getElem_ofFn _ _ _
      show rowVec (((matToList st3.S).take t3).getD q.val []) n = _
      rw [hget, rowVec_ofFn]
      rfl
    rw [hfam]
    exact (echelon_rows_indep hE).comp _
      (fun x y hxy => Fin.ext (show x.val = y.val from
        congrArg (fun z : Fin t3 => z.val) hxy))

/-- Concrete instance of C2: the triangle boundary pair. `bd1` sends the three
edges to their vertex pairs, `bd2` sends the 2-cell to its three edges;
`bd1·bd2 = 0` mod 2. -/
theorem claim_C2_witness :
    ∃ rows, homology_basis (!![1,1,0; 1,0,1; 0,1,1] : Mat 3 3)
        (!![1; 1; 1] : Mat 3 1) none false = some (HBOut.vectors rows) ∧
      rows.length + (!![1,1,0; 1,0,1; 0,1,1] : Mat 3 3).rank
        + (!![1; 1; 1] : Mat 3 1).rank = 3 ∧
      (∀ row ∈ rows, row.length = 3 ∧ (∀ x ∈ row, x ≤ 1) ∧ 0 < row.sum ∧
        (!![1,1,0; 1,0,1; 0,1,1] : Mat 3 3).mulVec (rowVec row 3) = 0) ∧
      LinearIndependent (ZMod 2)
        (fun q : Fin rows.length => rowVec (rows.getD q.val []) 3) :=
  claim_C2 (!![1,1,0; 1,0,1; 0,1,1] : Mat 3 3) (!![1; 1; 1] : Mat 3 1) (by decide)
